import Mathlib

/-!
Verification development for the Orthodox Study Bible EPUB extraction
pipeline (src/parser/epub_parser.py).  The Python parser is shallowly
embedded: the DOM is an inductive tree, pure text transformations are
functions on lists of characters, and the stateful accumulation of the
orchestrator is explicit state passing over association lists.
-/

namespace OSB

/-! ## Character classes

Python regular expressions over str.  The character class models are
ASCII-focused (the corpus is ASCII apart from the stray glyphs removed by
clean_text); Python whitespace is modelled by the common whitespace
characters plus U+00A0, which the source adds explicitly where relevant.
-/

def isWs (c : Char) : Bool :=
  c = ' ' || c = '\t' || c = '\n' || c = '\r' || c = '\x0b' || c = '\x0c' || c = ' '

def isUpperA (c : Char) : Bool := 'A' ≤ c && c ≤ 'Z'

def isLowerA (c : Char) : Bool := 'a' ≤ c && c ≤ 'z'

def isDigitA (c : Char) : Bool := '0' ≤ c && c ≤ '9'

def isAlnumA (c : Char) : Bool := isUpperA c || isLowerA c || isDigitA c

/-- The characters removed by the first substitution of _clean_text.
The Python source literal is a double-encoded artifact; the class it
actually denotes is the set of these six characters
(U+00E2, U+20AC, U+00A0, U+00A1, U+00CF, U+2030). -/
def markerGlyphs : List Char := ['â', '€', ' ', '¡', 'Ï', '‰']

/-! ## Generic list-of-characters helpers -/

/-- Python str.strip: remove leading and trailing whitespace. -/
def trimWs (l : List Char) : List Char :=
  ((l.dropWhile isWs).reverse.dropWhile isWs).reverse

/-- Whether pat occurs as a contiguous substring (Python: pat in s). -/
def hasSubstr (pat : List Char) : List Char → Bool
  | [] => pat = []
  | c :: rest => pat.isPrefixOf (c :: rest) || hasSubstr pat rest

def natOfDigits (l : List Char) : Nat :=
  l.foldl (fun n c => 10 * n + (c.toNat - '0'.toNat)) 0

theorem dropWhile_length_le (p : Char → Bool) (l : List Char) :
    (l.dropWhile p).length ≤ l.length :=
  (List.dropWhile_suffix p).length_le

/-! ## The _clean_text pipeline

Each re.sub of _clean_text is one function below; cleanText composes them
in source order.  The scans mirror re.sub semantics: leftmost match,
greedy quantifiers, continue after the end of each replacement.
-/

/-- Substitution 1: delete the marker-glyph characters. -/
def stripGlyphs (l : List Char) : List Char :=
  l.filter (fun c => !(markerGlyphs.contains c))

/-- Substitution 2: collapse each whitespace run to a single space
(map every whitespace character to a space, then squeeze runs). -/
def squeezeSpaces : List Char → List Char
  | [] => []
  | [c] => [c]
  | a :: b :: rest =>
    if a = ' ' && b = ' ' then squeezeSpaces (b :: rest)
    else a :: squeezeSpaces (b :: rest)

def collapseWs (l : List Char) : List Char :=
  squeezeSpaces (l.map (fun c => if isWs c then ' ' else c))

/-- Substitution 3: drop-cap fix at the start of the text
(single capital letter, space, lowercase letter at position 0). -/
def dropCapStart : List Char → List Char
  | c1 :: ' ' :: c2 :: rest =>
    if isUpperA c1 && isLowerA c2 then c1 :: c2 :: rest
    else c1 :: ' ' :: c2 :: rest
  | l => l

/-- Substitution 4: drop-cap fix after a sentence-ending period, applied
globally and non-overlapping.  The scanners below take a fuel argument to
stay structurally recursive; every step consumes at least one character,
so fuel equal to the length of the input makes the scan complete. -/
def dropCapPeriodGo : Nat → List Char → List Char
  | 0, l => l
  | _, [] => []
  | fuel + 1, l =>
    match l with
    | [] => []
    | '.' :: ' ' :: c1 :: ' ' :: c2 :: rest =>
      if isUpperA c1 && isLowerA c2 then '.' :: ' ' :: c1 :: c2 :: dropCapPeriodGo fuel rest
      else '.' :: dropCapPeriodGo fuel (' ' :: c1 :: ' ' :: c2 :: rest)
    | c :: rest => c :: dropCapPeriodGo fuel rest

def dropCapPeriod (l : List Char) : List Char := dropCapPeriodGo l.length l

/-- Substitution 5 (after a strip): remove a leading standalone integer
followed by whitespace. -/
def stripLeadingNumber (l : List Char) : List Char :=
  let ds := l.takeWhile isDigitA
  if ds.isEmpty then l
  else
    let rest := l.dropWhile isDigitA
    let ws := rest.takeWhile isWs
    if ws.isEmpty then l else rest.dropWhile isWs

/-- Matcher for an empty emphasis tag pair (i or b with only whitespace
between the open and close tag); returns the remainder after the match. -/
def matchEmptyTag : List Char → Option (List Char)
  | '<' :: t :: '>' :: rest =>
    if t = 'i' || t = 'b' then
      match rest.dropWhile isWs with
      | '<' :: '/' :: t2 :: '>' :: r3 => if t2 = t then some r3 else none
      | _ => none
    else none
  | _ => none

/-- Substitution 6: remove empty emphasis tag pairs, globally.  A match
consumes at least seven characters, a non-match advances by one. -/
def removeEmptyTagsGo : Nat → List Char → List Char
  | 0, l => l
  | _, [] => []
  | fuel + 1, c :: rest =>
    match matchEmptyTag (c :: rest) with
    | some r => removeEmptyTagsGo fuel r
    | none => c :: removeEmptyTagsGo fuel rest

def removeEmptyTags (l : List Char) : List Char := removeEmptyTagsGo l.length l

/-- Substitution 7: a whitespace run immediately before an opening angle
bracket becomes a single space. -/
def fixSpaceBeforeTagGo : Nat → List Char → List Char
  | 0, l => l
  | _, [] => []
  | fuel + 1, c :: rest =>
    if isWs c then
      match rest.dropWhile isWs with
      | '<' :: r2 => ' ' :: '<' :: fixSpaceBeforeTagGo fuel r2
      | _ => c :: fixSpaceBeforeTagGo fuel rest
    else c :: fixSpaceBeforeTagGo fuel rest

def fixSpaceBeforeTag (l : List Char) : List Char := fixSpaceBeforeTagGo l.length l

/-- Substitution 8: a whitespace run immediately after a closing angle
bracket becomes a single space. -/
def fixSpaceAfterTagGo : Nat → List Char → List Char
  | 0, l => l
  | _, [] => []
  | fuel + 1, c :: rest =>
    if c = '>' then
      match rest with
      | [] => ['>']
      | r :: rs =>
        if isWs r then '>' :: ' ' :: fixSpaceAfterTagGo fuel ((r :: rs).dropWhile isWs)
        else '>' :: fixSpaceAfterTagGo fuel (r :: rs)
    else c :: fixSpaceAfterTagGo fuel rest

def fixSpaceAfterTag (l : List Char) : List Char := fixSpaceAfterTagGo l.length l

/-- Substitution 9: whitespace directly after an opening angle bracket is
deleted. -/
def fixOpenTagSpaceGo : Nat → List Char → List Char
  | 0, l => l
  | _, [] => []
  | fuel + 1, c :: rest =>
    if c = '<' then
      match rest with
      | [] => ['<']
      | r :: rs =>
        if isWs r then '<' :: fixOpenTagSpaceGo fuel ((r :: rs).dropWhile isWs)
        else '<' :: fixOpenTagSpaceGo fuel (r :: rs)
    else c :: fixOpenTagSpaceGo fuel rest

def fixOpenTagSpace (l : List Char) : List Char := fixOpenTagSpaceGo l.length l

/-- Substitution 10: a whitespace run directly before a closing angle
bracket is deleted. -/
def fixCloseTagSpaceGo : Nat → List Char → List Char
  | 0, l => l
  | _, [] => []
  | fuel + 1, c :: rest =>
    if isWs c then
      match rest.dropWhile isWs with
      | '>' :: r2 => '>' :: fixCloseTagSpaceGo fuel r2
      | _ => c :: fixCloseTagSpaceGo fuel rest
    else c :: fixCloseTagSpaceGo fuel rest

def fixCloseTagSpace (l : List Char) : List Char := fixCloseTagSpaceGo l.length l

/-- The _clean_text method: the substitutions above composed in source
order, with the two strips of the source in place. -/
def cleanTextL (l : List Char) : List Char :=
  if l.isEmpty then []
  else
    let t1 := stripGlyphs l
    let t2 := collapseWs t1
    let t3 := dropCapStart t2
    let t4 := dropCapPeriod t3
    let t5 := trimWs t4
    let t6 := stripLeadingNumber t5
    let t7 := removeEmptyTags t6
    let t8 := fixSpaceBeforeTag t7
    let t9 := fixSpaceAfterTag t8
    let t10 := fixOpenTagSpace t9
    let t11 := fixCloseTagSpace t10
    trimWs t11

def cleanText (s : String) : String :=
  String.mk (cleanTextL s.data)

/-! ## DOM model

A parsed HTML document is a tree of tags and text nodes; attributes are
an association list.  This models the BeautifulSoup node objects the
parser operates on. -/

abbrev Attrs := List (String × String)

def getAttr (attrs : Attrs) (name : String) : Option String :=
  (attrs.find? (fun p => p.1 = name)).map (fun p => p.2)

inductive Node where
  | text : String → Node
  | elem : String → Attrs → List Node → Node

def Node.idAttr : Node → Option String
  | .text _ => none
  | .elem _ attrs _ => getAttr attrs "id"

def Node.tagName : Node → Option String
  | .text _ => none
  | .elem n _ _ => some n

/-- Serialization (str(node)); a canonical form is enough since the html
fields are stored opaquely and never re-parsed by the claims. -/
def renderAttrs (attrs : Attrs) : String :=
  attrs.foldl (fun acc p => acc ++ " " ++ p.1 ++ "=\"" ++ p.2 ++ "\"") ""

mutual
def render : Node → String
  | .text s => s
  | .elem n attrs cs => "<" ++ n ++ renderAttrs attrs ++ ">" ++ renderF cs ++ "</" ++ n ++ ">"
def renderF : List Node → String
  | [] => ""
  | n :: rest => render n ++ renderF rest
end

/- BeautifulSoup get_text(): concatenation of all text descendants. -/
mutual
def textOf : Node → String
  | .text s => s
  | .elem _ _ cs => textOfF cs
def textOfF : List Node → String
  | [] => ""
  | n :: rest => textOf n ++ textOfF rest
end

/- BeautifulSoup stripped_strings: each text descendant stripped, the
whitespace-only ones skipped, in document order. -/
mutual
def strippedStrings : Node → List String
  | .text s =>
    let t := trimWs s.data
    if t.isEmpty then [] else [String.mk t]
  | .elem _ _ cs => strippedStringsF cs
def strippedStringsF : List Node → List String
  | [] => []
  | n :: rest => strippedStrings n ++ strippedStringsF rest
end

/-! ## _extract_styled_text

The source reparses str(element) into a fresh tree, unwraps every tag
except i and b working from the deepest tag upward, and returns the
concatenation of the serialized remaining children.  Unwrapping a tag
replaces it by its children, so the net effect on the fresh copy is the
recursive flattening below. -/

mutual
def unwrapNonStyled : Node → List Node
  | .text s => [.text s]
  | .elem n attrs cs =>
    let cs2 := unwrapNonStyledF cs
    if n = "i" || n = "b" then [.elem n attrs cs2] else cs2
def unwrapNonStyledF : List Node → List Node
  | [] => []
  | n :: rest => unwrapNonStyled n ++ unwrapNonStyledF rest
end

def extractStyledText (e : Node) : String :=
  String.join ((unwrapNonStyled e).map render)

/-- State-passing form of _extract_styled_text: the method's only tree
surgery happens on the fresh copy parsed from str(element), so the
caller's subtree passes through unchanged and is returned as the
post-call state. -/
def extractStyledTextSt (e : Node) : String × Node :=
  let elemCopy := e
  (String.join ((unwrapNonStyled elemCopy).map render), e)

/-! ## _is_boundary -/

def BOUNDARY_CLASSES : List String := ["psalm", "sub1", "sub2"]

/-- Splitting a class attribute on whitespace (BeautifulSoup presents the
class attribute as this word list). -/
def splitWsGo : Nat → List Char → List String
  | 0, _ => []
  | _, [] => []
  | fuel + 1, c :: rest =>
    if isWs c then splitWsGo fuel (rest.dropWhile isWs)
    else
      let w := c :: rest.takeWhile (fun d => !isWs d)
      String.mk w :: splitWsGo fuel (rest.dropWhile (fun d => !isWs d))

def splitWsL (l : List Char) : List String := splitWsGo l.length l

def classesOf (attrs : Attrs) : List String :=
  splitWsL ((getAttr attrs "class").getD "").data

def isBoundary : Node → Bool
  | .text _ => false
  | .elem n attrs _ =>
    let style := (getAttr attrs "style").getD ""
    (classesOf attrs).any (fun c => BOUNDARY_CLASSES.contains c) ||
      (n = "div" && hasSubstr "background-color".data style.data
        && hasSubstr "gray".data style.data)

/-! ## Verse-id patterns -/

/-- Tail of a verse id after the abbreviation: literal _vchap, digits,
a hyphen, digits, end of string. -/
def parseVchapTail (l : List Char) : Option (Nat × Nat) :=
  if "_vchap".data.isPrefixOf l then
    let r2 := l.drop 6
    let ds1 := r2.takeWhile isDigitA
    let r3 := r2.dropWhile isDigitA
    if ds1.isEmpty then none
    else
      match r3 with
      | '-' :: r4 =>
        let ds2 := r4.takeWhile isDigitA
        let r5 := r4.dropWhile isDigitA
        if ds2.isEmpty || !r5.isEmpty then none
        else some (natOfDigits ds1, natOfDigits ds2)
      | _ => none
  else none

/-- The generic verse-id pattern with an alphanumeric abbreviation
(regex: start, alnum run, _vchap, digits, hyphen, digits, end). -/
def parseVerseIdAny (s : String) : Option (String × Nat × Nat) :=
  let ab := s.data.takeWhile isAlnumA
  if ab.isEmpty then none
  else (parseVchapTail (s.data.dropWhile isAlnumA)).map
    (fun p => (String.mk ab, p.1, p.2))

def isVerseIdAny (s : String) : Bool := (parseVerseIdAny s).isSome

/-- The per-book pattern with one escaped literal abbreviation. -/
def isVerseIdFor (ab : String) (s : String) : Bool :=
  ab.data.isPrefixOf s.data && (parseVchapTail (s.data.drop ab.data.length)).isSome

/-- The alternation pattern over all of a book's abbreviations; regex
alternation tries the alternatives left to right. -/
def matchBookVerseId (abbrevs : List String) (s : String) : Option (String × Nat × Nat) :=
  abbrevs.findSome? (fun ab =>
    if ab.data.isPrefixOf s.data then
      (parseVchapTail (s.data.drop ab.data.length)).map (fun p => (ab, p.1, p.2))
    else none)

/-! ## _extract_prose_verse

The document-order descendant scan of a subtree is flattened to a list of
items: one item per tag (carrying its id attribute) and one per text node
(carrying whether an italic or bold ancestor encloses it, the data
find_parent supplies for the wrappers). -/

inductive SItem where
  | tag : String → Option String → SItem
  | str : String → Bool → Bool → SItem
deriving DecidableEq

mutual
def itemsOfNode (inI inB : Bool) : Node → List SItem
  | .text s => [.str s inI inB]
  | .elem n attrs cs =>
    .tag n (getAttr attrs "id") :: itemsOfF (inI || n = "i") (inB || n = "b") cs
def itemsOfF (inI inB : Bool) : List Node → List SItem
  | [] => []
  | n :: rest => itemsOfNode inI inB n ++ itemsOfF inI inB rest
end

/-- The descendants of a subtree root in document order (the root itself
is not a descendant); the flags give whether an italic or bold ancestor
encloses the root. -/
def descendantsItems (inI inB : Bool) : Node → List SItem
  | .text _ => []
  | .elem n _ cs => itemsOfF (inI || n = "i") (inB || n = "b") cs

/-- Emphasis wrapping of one collected text run, as in the source: both
ancestors give a combined wrapper, otherwise the single one. -/
def wrapStyled (s : String) (inI inB : Bool) : String :=
  if inI && inB then "<b><i>" ++ s ++ "</i></b>"
  else if inI then "<i>" ++ s ++ "</i>"
  else if inB then "<b>" ++ s ++ "</b>"
  else s

/-- The inner extract_styled_until_boundary loop: skip until the item
whose id is the start marker (when collecting is initially false),
then collect wrapped nonblank text runs, stopping with a boundary flag
at the first tag whose id matches the book's verse pattern and differs
from the current verse. -/
def extractUntilGo (ab verseId saId : String) : List SItem → Bool → List String × Bool
  | [], _ => ([], false)
  | .tag _ oid :: rest, collecting =>
    if !collecting then
      extractUntilGo ab verseId saId rest (oid = some saId)
    else if (match oid with
             | some d => isVerseIdFor ab d && d ≠ verseId
             | none => false) then
      ([], true)
    else extractUntilGo ab verseId saId rest true
  | .str s inI inB :: rest, collecting =>
    if !collecting then extractUntilGo ab verseId saId rest false
    else if !(trimWs s.data).isEmpty then
      let r := extractUntilGo ab verseId saId rest true
      (wrapStyled s inI inB :: r.1, r.2)
    else extractUntilGo ab verseId saId rest true

def extractStyledUntilBoundary (ab verseId : String) (startAfter : Option String)
    (items : List SItem) : List String × Bool :=
  match startAfter with
  | none => extractUntilGo ab verseId "" items true
  | some sa => extractUntilGo ab verseId sa items false

def contentTags : List String := ["ol", "p", "div"]

/-- The sibling-following part of _extract_prose_verse: walk the
following siblings of the parent container (find_next_sibling skips bare
text nodes), stop at a structural boundary, scan content elements and
stop after the first one whose scan hit a verse boundary. -/
def proseSiblingScan (ab verseId : String) : List Node → List String
  | [] => []
  | sib :: rest =>
    match sib with
    | .text _ => proseSiblingScan ab verseId rest
    | .elem n attrs cs =>
      if isBoundary (.elem n attrs cs) then []
      else if contentTags.contains n then
        let r := extractStyledUntilBoundary ab verseId none
          (descendantsItems false false (.elem n attrs cs))
        r.1 ++ (if r.2 then [] else proseSiblingScan ab verseId rest)
      else proseSiblingScan ab verseId rest

/-- The _extract_prose_verse method.  element is the verse anchor,
parent its enclosing paragraph or div (none when find_parent fails), and
siblingsAfterParent the parent's following siblings in order.  Returns
the html and the cleaned verse text, in source order. -/
def extractProseVerse (element : Node) (parent : Option Node)
    (siblingsAfterParent : List Node) (verseId ab : String) : String × String :=
  match parent with
  | none => (render element, cleanText (extractStyledText element))
  | some par =>
    let r := extractStyledUntilBoundary ab verseId (some verseId)
      (descendantsItems false false par)
    let parts := r.1 ++ (if r.2 then [] else proseSiblingScan ab verseId siblingsAfterParent)
    (render element, cleanText (String.intercalate " " parts))

/-! ## _get_preceding_text

The backward walk from an anchor is driven by the anchor's context: for
the anchor and then each enclosing ancestor, its previous siblings in
nearest-first order, together with the name of the ancestor above (none
at the document root). -/

structure Frame where
  prevSibs : List Node
  parentName : Option String

/-- Text contribution of one previous sibling: the node's own string for
a text node, get_text() for a tag, whitespace runs collapsed. -/
def sibText : Node → List Char
  | .text s => collapseWs s.data
  | .elem n attrs cs => collapseWs (textOf (.elem n attrs cs)).data

/-- Inner sibling loop: collect nonblank contributions nearest-first
while fewer than 40 characters have been counted. -/
def collectFromSibs : List Node → Nat → List (List Char) × Nat
  | [], chars => ([], chars)
  | n :: rest, chars =>
    if chars < 40 then
      let t := sibText n
      if (trimWs t).isEmpty then collectFromSibs rest chars
      else
        let r := collectFromSibs rest (chars + t.length)
        (t :: r.1, r.2)
    else ([], chars)

/-- Outer loop over enclosing frames; stops when 40 characters are
counted, at a body or html parent, or at the document root.  The result
is in traversal order (nearest text first). -/
def walkPreceding : List Frame → Nat → List (List Char)
  | [], _ => []
  | f :: rest, chars =>
    if chars < 40 then
      let r := collectFromSibs f.prevSibs chars
      match f.parentName with
      | some pn => if pn = "body" || pn = "html" then r.1 else r.1 ++ walkPreceding rest r.2
      | none => r.1
    else []

def findIdx (c : Char) : List Char → Option Nat
  | [] => none
  | x :: rest => if x = c then some 0 else (findIdx c rest).map (fun i => i + 1)

/-- Final truncation of _get_preceding_text: keep the last 40 characters
of the cleaned text and, when the first space of that suffix sits at an
index strictly between 0 and 10, cut to just after it. -/
def truncatePreceding (result : List Char) : List Char :=
  if 40 < result.length then
    match findIdx ' ' (result.drop (result.length - 40)) with
    | some i =>
      if 0 < i && i < 10 then (result.drop (result.length - 40)).drop (i + 1)
      else result.drop (result.length - 40)
    | none => result.drop (result.length - 40)
  else result

def getPrecedingTextL (frames : List Frame) : List Char :=
  truncatePreceding (cleanTextL (((walkPreceding frames 0).reverse).flatten))

def getPrecedingText (frames : List Frame) : String :=
  String.mk (getPrecedingTextL frames)

/-! ## _collect_annotation_markers -/

structure AnnotationMarker where
  id : String
  type : String
  preceding : String
deriving DecidableEq

/-- Pattern search helper: try a matcher at every suffix, leftmost match
first (re.search). -/
def searchL (m : List Char → Option String) : List Char → Option String
  | [] => none
  | c :: rest =>
    match m (c :: rest) with
    | some r => some r
    | none => searchL m rest

/-- Matcher for a literal followed by a captured digit run; capPre is
the part of the literal inside the capture group. -/
def matchLitDigits (lit : List Char) (capPre : String) (l : List Char) : Option String :=
  if lit.isPrefixOf l then
    let r := l.drop lit.length
    let ds := r.takeWhile isDigitA
    if ds.isEmpty then none else some (capPre ++ String.mk ds)
  else none

/-- Matcher for the study pattern: study, digits, .html#, captured f and
digits. -/
def matchStudyAt (l : List Char) : Option String :=
  if "study".data.isPrefixOf l then
    let r := l.drop 5
    let ds := r.takeWhile isDigitA
    if ds.isEmpty then none
    else
      let r2 := r.dropWhile isDigitA
      if ".html#f".data.isPrefixOf r2 then
        let r3 := r2.drop 7
        let ds2 := r3.takeWhile isDigitA
        if ds2.isEmpty then none else some ("f" ++ String.mk ds2)
      else none
  else none

/-- One link anchor as seen by the marker collector: its href, the DOM
context for the preceding-text walk, and the verse id found for it by
the backward nearest-preceding-verse-anchor walk of
_find_verse_for_element (none when that walk finds nothing). -/
structure MarkerLink where
  href : String
  ctx : List Frame
  verseId : Option String

def studyFilt (h : String) : Bool :=
  hasSubstr "study".data h.data && hasSubstr "#f".data h.data
    && !hasSubstr "fx".data h.data

def studyEx (h : String) : Option String := searchL matchStudyAt h.data

def litFilt (h : String) : Bool :=
  hasSubstr "liturgical".data h.data && hasSubstr "#fx".data h.data

def litEx (h : String) : Option String :=
  searchL (matchLitDigits "x-liturgical.html#fx".data "fx") h.data

def varFilt (h : String) : Bool := hasSubstr "variant.html#fvar".data h.data

def varEx (h : String) : Option String :=
  searchL (matchLitDigits "variant.html#fvar".data "fvar") h.data

def citFilt (h : String) : Bool := hasSubstr "citation.html#fcit".data h.data

def citEx (h : String) : Option String :=
  searchL (matchLitDigits "citation.html#fcit".data "fcit") h.data

def crossFilt (h : String) : Bool :=
  hasSubstr "crossReference.html#fcross".data h.data

def crossEx (h : String) : Option String :=
  searchL (matchLitDigits "crossReference.html#fcross".data "fcross") h.data

/-- The five marker configurations in source order: kind, href filter,
id extraction pattern. -/
def markerConfigs : List (String × (String → Bool) × (String → Option String)) :=
  [("study", studyFilt, studyEx),
   ("liturgical", litFilt, litEx),
   ("variant", varFilt, varEx),
   ("citation", citFilt, citEx),
   ("cross_ref", crossFilt, crossEx)]

/-- Append one marker to the list of the verse key (insertion-ordered
dictionary of lists). -/
def appendMarker (m : List (String × List AnnotationMarker)) (v : String)
    (mk : AnnotationMarker) : List (String × List AnnotationMarker) :=
  match m with
  | [] => [(v, [mk])]
  | (k, l) :: rest =>
    if k = v then (k, l ++ [mk]) :: rest else (k, l) :: appendMarker rest v mk

/-- One anchor of the inner loop of _collect_annotation_markers: a
link passing the kind's href filter whose id pattern matches and whose
backward walk found a verse appends one marker to that verse. -/
def collectStep (ty : String) (filt : String → Bool) (ex : String → Option String)
    (acc : List (String × List AnnotationMarker)) (link : MarkerLink) :
    List (String × List AnnotationMarker) :=
  if filt link.href then
    match ex link.href with
    | none => acc
    | some mid =>
      match link.verseId with
      | some v => appendMarker acc v ⟨mid, ty, getPrecedingText link.ctx⟩
      | none => acc
  else acc

/-- Inner loop of _collect_annotation_markers for one marker kind. -/
def collectKind (ty : String) (filt : String → Bool) (ex : String → Option String)
    (links : List MarkerLink) (acc : List (String × List AnnotationMarker)) :
    List (String × List AnnotationMarker) :=
  links.foldl (collectStep ty filt ex) acc

/-- The _collect_annotation_markers pre-pass: for each kind in the fixed
order, scan all anchors in document order. -/
def collectAnnotationMarkers (links : List MarkerLink) :
    List (String × List AnnotationMarker) :=
  markerConfigs.foldl (fun acc cfg => collectKind cfg.1 cfg.2.1 cfg.2.2 links acc) []

def lookupMarkers (m : List (String × List AnnotationMarker)) (v : String) :
    List AnnotationMarker :=
  ((m.find? (fun p => p.1 = v)).map (fun p => p.2)).getD []

/-! ## Entity records (src/parser/models.py) -/

structure Annotation where
  id : String
  type : String
  passage_ids : List String
  verse_display : String
  text : String
  html : String
  patristic_citations : List String
  scripture_refs : List String
deriving DecidableEq

structure Passage where
  id : String
  book_id : String
  chapter : Nat
  verse : Nat
  text : String
  html : String
  format : String
  study_note_ids : List String
  liturgical_ids : List String
  variant_ids : List String
  citation_ids : List String
  article_ids : List String
  cross_ref_targets : List String
  cross_ref_text : Option String
  annotation_markers : List AnnotationMarker
deriving DecidableEq

structure Book where
  id : String
  name : String
  abbreviations : List String
  order : ℚ
  testament : String
  files : List String
deriving DecidableEq

structure CrossRefEntry where
  targets : List String
  text : String
  html : String
deriving DecidableEq

/-! ## Tree traversal helpers for the extractors -/

mutual
def nodeSize : Node → Nat
  | .text _ => 1
  | .elem _ _ cs => 1 + nodeSizeF cs
def nodeSizeF : List Node → Nat
  | [] => 0
  | n :: rest => nodeSize n + nodeSizeF rest
end

/- All tag elements of a subtree in document order, the root included
when it is a tag (the sequence find_all iterates). -/
mutual
def elemsOf : Node → List Node
  | .text _ => []
  | .elem n a cs => .elem n a cs :: elemsOfF cs
def elemsOfF : List Node → List Node
  | [] => []
  | n :: rest => elemsOf n ++ elemsOfF rest
end

def Node.children : Node → List Node
  | .text _ => []
  | .elem _ _ cs => cs

/-! ## _extract_articles -/

def lowerStr (s : String) : String := String.mk (s.data.map Char.toLower)

def upperStr (s : String) : String := String.mk (s.data.map Char.toUpper)

/-- The style filter of the article find_all: a div whose style mentions
background-color and gray. -/
def isArticleDiv : Node → Bool
  | .text _ => false
  | .elem n attrs _ =>
    let style := (getAttr attrs "style").getD ""
    n = "div" && hasSubstr "background-color".data style.data
      && hasSubstr "gray".data style.data

/-- The title-cleaning substitution marking word boundaries: a run of at
least two whitespace characters becomes a double bar placeholder. -/
def collapseTitleWsGo : Nat → List Char → List Char
  | 0, l => l
  | _, [] => []
  | fuel + 1, a :: rest =>
    match rest with
    | b :: _ =>
      if isWs a && isWs b then '|' :: '|' :: collapseTitleWsGo fuel (rest.dropWhile isWs)
      else a :: collapseTitleWsGo fuel rest
    | [] => [a]

/-- The letter-spacing substitution: a capital, one whitespace character
and a lookahead capital collapse to the capital. -/
def collapseTitleLetters : List Char → List Char
  | c1 :: c2 :: c3 :: rest =>
    if isUpperA c1 && isWs c2 && isUpperA c3 then c1 :: collapseTitleLetters (c3 :: rest)
    else c1 :: collapseTitleLetters (c2 :: c3 :: rest)
  | l => l

/-- Restore word boundaries: each double bar placeholder becomes one
space. -/
def replacePipes : List Char → List Char
  | '|' :: '|' :: rest => ' ' :: replacePipes rest
  | c :: rest => c :: replacePipes rest
  | [] => []

/-- Title reconstruction from letter-spaced typesetting. -/
def cleanSpacedTitle (raw : String) : String :=
  String.mk (trimWs (replacePipes (collapseTitleLetters
    (collapseTitleWsGo raw.data.length raw.data))))

/-- Slug generation for an article without an explicit anchor id: runs
of characters outside lowercase and digits become underscores, outer
underscores are stripped, the first 30 characters are kept. -/
def slugCollapseGo : Nat → List Char → List Char
  | 0, l => l
  | _, [] => []
  | fuel + 1, c :: rest =>
    if isLowerA c || isDigitA c then c :: slugCollapseGo fuel rest
    else '_' :: slugCollapseGo fuel (rest.dropWhile (fun d => !(isLowerA d || isDigitA d)))

def slugify (s : String) : String :=
  let t := (lowerStr s).data
  let collapsed := slugCollapseGo t.length t
  String.mk ((((collapsed.dropWhile (fun c => c = '_')).reverse.dropWhile
    (fun c => c = '_')).reverse).take 30)

/-- Digit-string form of the generic verse-id pattern, keeping the raw
digit groups (used where the source interpolates the matched strings). -/
def parseVerseIdStrs (s : String) : Option (String × String × String) :=
  let ab := s.data.takeWhile isAlnumA
  if ab.isEmpty then none
  else
    let r1 := s.data.dropWhile isAlnumA
    if "_vchap".data.isPrefixOf r1 then
      let r2 := r1.drop 6
      let ds1 := r2.takeWhile isDigitA
      if ds1.isEmpty then none
      else
        match r2.dropWhile isDigitA with
        | '-' :: r4 =>
          let ds2 := r4.takeWhile isDigitA
          if ds2.isEmpty || !(r4.dropWhile isDigitA).isEmpty then none
          else some (String.mk ab, String.mk ds1, String.mk ds2)
        | _ => none
    else none

/-- The unanchored verse-reference matcher of
_extract_scripture_refs_from_html, tried at one position. -/
def matchVerseRefAt (l : List Char) : Option String :=
  let ab := l.takeWhile isAlnumA
  if ab.isEmpty then none
  else
    let r := l.dropWhile isAlnumA
    if "_vchap".data.isPrefixOf r then
      let r2 := r.drop 6
      let d1 := r2.takeWhile isDigitA
      if d1.isEmpty then none
      else
        match r2.dropWhile isDigitA with
        | '-' :: r3 =>
          let d2 := r3.takeWhile isDigitA
          if d2.isEmpty then none
          else some (String.mk (ab ++ "_vchap".data ++ d1 ++ '-' :: d2))
        | _ => none
    else none

/-- The same matcher behind a literal hash, as the cross-reference and
citation parsers use. -/
def matchHashVerseAt : List Char → Option String
  | '#' :: r => matchVerseRefAt r
  | _ => none

/-- The _extract_scripture_refs_from_html helper: every link with an
href whose href contains a verse reference contributes it. -/
def extractScriptureRefsFromHtml (root : Node) : List String :=
  (elemsOf root).foldl (fun acc e =>
    match e with
    | .elem "a" attrs _ =>
      match getAttr attrs "href" with
      | some href =>
        match searchL matchVerseRefAt href.data with
        | some r => acc ++ [r]
        | none => acc
      | none => acc
    | _ => acc) []

def Node.classes : Node → List String
  | .text _ => []
  | .elem _ attrs _ => classesOf attrs

/-- One body paragraph of _clean_article_text: skipped when it is the
title or cleans to nothing; section headers get a blank line before and
are uppercased when all lowercase; extended quotes are indented. -/
def articlePara (acc : List String) (p : Node) : List String :=
  let cls := p.classes
  if cls.contains "ct" then acc
  else
    let t := cleanText (extractStyledText p)
    if t.isEmpty then acc
    else if cls.contains "sub1" then
      acc ++ ["", if t = lowerStr t then upperStr t else t]
    else if cls.contains "ext" then acc ++ ["    " ++ t]
    else acc ++ [t]

/-- The _clean_article_text method: title, blank line, then each body
paragraph in document order. -/
def cleanArticleText (div : Node) (title : String) : String :=
  let paras := (elemsOfF div.children).filter (fun e => e.tagName = some "p")
  String.mk (trimWs (String.intercalate "\n" (paras.foldl articlePara [title, ""])).data)

/-- Processing of one article div: locate the title paragraph, derive
the id and clean title, find the first verse-id anchor after the div in
document order (find_all_next), and build the article annotation; an
article with no following verse anchor produces nothing. -/
def processArticleDiv (div : Node) (after : List Node) : Option ( Annotation × String) :=
  match (elemsOfF div.children).find? (fun e =>
      e.tagName = some "p" &&
        (match e with
         | .elem _ attrs _ => (classesOf attrs).contains "ct"
         | .text _ => false)) with
  | none => none
  | some titleP =>
    let articleId :=
      match titleP.idAttr with
      | some i => i
      | none => slugify (String.join (strippedStrings titleP))
    let rawTitle := String.intercalate "  " (strippedStrings titleP)
    let cleanTitle := cleanSpacedTitle rawTitle
    let articleHtml := render div
    let articleText := cleanArticleText div cleanTitle
    match after.find? (fun e =>
        match e.idAttr with
        | some i => isVerseIdAny i
        | none => false) with
    | none => none
    | some anchor =>
      let followingVerseId := (anchor.idAttr).getD ""
      let verseDisplay :=
        match parseVerseIdStrs followingVerseId with
        | some (_, d1, d2) => d1 ++ ":" ++ d2
        | none => ""
      some (⟨articleId, "article", [followingVerseId], verseDisplay, articleText,
        articleHtml, [], extractScriptureRefsFromHtml div⟩, followingVerseId)

/-- Document scan of _extract_articles: worklist traversal in document
order; for each article div the elements after its start (its own
descendants, then everything following) are in scope for the
following-verse search. -/
def scanArticlesGo : Nat → List Node → List ( Annotation × String)
  | 0, _ => []
  | _, [] => []
  | fuel + 1, n :: rest =>
    match n with
    | .text _ => scanArticlesGo fuel rest
    | .elem nm a cs =>
      let after := cs ++ rest
      (if isArticleDiv (.elem nm a cs) then
        (processArticleDiv (.elem nm a cs) (elemsOfF after)).toList
       else []) ++ scanArticlesGo fuel after

def extractArticles (doc : Node) : List ( Annotation × String) :=
  scanArticlesGo (nodeSize doc) [doc]

/-! ## _parse_cross_references -/

def isFcrossId (s : String) : Bool :=
  "fcross".data.isPrefixOf s.data &&
    (let r := s.data.drop 6
     !r.isEmpty && r.all isDigitA)

/-- One link of a cross-reference div: its href contributes a target
when it contains a verse fragment. -/
def crossRefTargetStep (acc : List String) (e : Node) : List String :=
  match e with
  | .elem "a" attrs _ =>
    let href := (getAttr attrs "href").getD ""
    if hasSubstr "_vchap".data href.data then
      match searchL matchHashVerseAt href.data with
      | some t => acc ++ [t]
      | none => acc
    else acc
  | _ => acc

/-- Building one cross-reference entry from its div. -/
def crossRefEntryOf (div : Node) : CrossRefEntry :=
  ⟨(elemsOf div).foldl crossRefTargetStep [],
   cleanText (extractStyledText div), render div⟩

/-- The _parse_cross_references pass over the dedicated file: each div
whose id matches the fcross pattern yields one table entry. -/
def parseCrossReferences (doc : Node) : List (String × CrossRefEntry) :=
  (elemsOf doc).foldl (fun acc e =>
    match e with
    | .elem "div" attrs _ =>
      match getAttr attrs "id" with
      | some i => if isFcrossId i then acc ++ [(i, crossRefEntryOf e)] else acc
      | none => acc
    | _ => acc) []

/-! ## _parse_manifest

The grouping of manifest items by book id produces, for each group, the
tuples (sortKey, href, order, bookName) of the source; the per-group
processing below covers lines 466-514.  The verse-id abbreviations
present in a file (_extract_book_abbreviations) are a function of file
content, passed in as abbrevsOf. -/

def NT_START_ORDER : Nat := 50

def MULTI_ABBREV_NAMES : List (String × String) :=
  [("Sus", "Susanna"), ("Dan", "Daniel"), ("Bel", "Bel and the Dragon")]

structure ManifestEntry where
  sortKey : Nat
  href : String
  order : Nat
  bookName : String
deriving DecidableEq

/-- Stable sort by sortKey (Python list.sort with a key function). -/
def insAfterEq (e : ManifestEntry) : List ManifestEntry → List ManifestEntry
  | [] => [e]
  | x :: rest =>
    if x.sortKey ≤ e.sortKey then x :: insAfterEq e rest else e :: x :: rest

def sortEntries (l : List ManifestEntry) : List ManifestEntry :=
  l.foldl (fun acc e => insAfterEq e acc) []

/-- First-occurrence deduplication (the seen-set loop of the source). -/
def dedupFirst (l : List String) : List String :=
  l.foldl (fun acc a => if acc.contains a then acc else acc ++ [a]) []

/-- The abbreviations of a file group: every abbreviation of every file
in sorted order, first occurrence kept. -/
def groupAbbrevs (sorted : List ManifestEntry) (abbrevsOf : String → List String) :
    List String :=
  dedupFirst ((sorted.map (fun f => abbrevsOf f.href)).flatten)

/-- Per-group book creation: multi-abbreviation groups split into one
Book per abbreviation with a fractional order offset; the testament
derives from the manifest ordinal of the group's first file against the
cutoff constant. -/
def processGroup (bookId : String) (files : List ManifestEntry)
    (abbrevsOf : String → List String) : List Book :=
  let sorted := sortEntries files
  match sorted.head? with
  | none => []
  | some first =>
    let order := first.order
    let displayName := String.mk (first.bookName.data.map (fun c => if c = '_' then ' ' else c))
    let testament := if NT_START_ORDER ≤ order then "new" else "old"
    let abbreviations := groupAbbrevs sorted abbrevsOf
    let fileList := sorted.map (fun f => f.href)
    if 1 < abbreviations.length then
      abbreviations.enum.map (fun p =>
        let i := p.1
        let abbr := p.2
        { id := lowerStr abbr
          name := (((MULTI_ABBREV_NAMES.find? (fun q => q.1 = abbr)).map
            (fun q => q.2)).getD abbr)
          abbreviations := [abbr]
          order := (order : ℚ) + (i : ℚ) * (1 / 10)
          testament := testament
          files := fileList })
    else
      [{ id := bookId, name := displayName, abbreviations := abbreviations,
         order := (order : ℚ), testament := testament, files := fileList }]

/-! ## _parse_book_file and the passage loop

The per-file orchestration operates on the results of the element-level
extractors: the article list of _extract_articles, the variant map of
_collect_variant_markers, the marker map of _collect_annotation_markers,
and one VerseElem per element carrying the fields produced by the text
extraction strategies and _extract_annotation_refs for that element.
The loop logic - id parsing, passage construction, cross-reference
resolution from pre-collected markers, and back-reference appending - is
translated below. -/

structure VerseElem where
  id : String
  studyIds : List String
  liturgicalIds : List String
  citationIds : List String
  text : String
  html : String
  fmt : String
deriving DecidableEq

structure FileData where
  articles : List ( Annotation × String)
  variantMarkers : List (String × List String)
  markers : List (String × List AnnotationMarker)
  verses : List VerseElem

structure PState where
  passages : List (String × Passage)
  annotations : List (String × Annotation)

/-- Python dict assignment on an insertion-ordered association list:
replace in place when the key exists, append otherwise. -/
def insertAL {α : Type} (m : List (String × α)) (k : String) (v : α) :
    List (String × α) :=
  if m.any (fun p => p.1 = k) then
    m.map (fun p => if p.1 = k then (k, v) else p)
  else m ++ [(k, v)]

def lookupAL {α : Type} (m : List (String × α)) (k : String) : Option α :=
  (m.find? (fun p => p.1 = k)).map (fun p => p.2)

/-- The cross-reference resolution loop over a verse's pre-collected
markers: the first cross_ref marker that resolves to an entry with
nonempty targets fills the fields, later ones are ignored. -/
def resolveCrossRefFromMarkers (tbl : List (String × CrossRefEntry)) :
    List AnnotationMarker → List String → Option String → List String × Option String
  | [], ts, tx => (ts, tx)
  | m :: rest, ts, tx =>
    if m.type = "cross_ref" then
      match lookupAL tbl m.id with
      | some cr =>
        if !cr.targets.isEmpty && ts.isEmpty then
          resolveCrossRefFromMarkers tbl rest cr.targets (some cr.text)
        else resolveCrossRefFromMarkers tbl rest ts tx
      | none => resolveCrossRefFromMarkers tbl rest ts tx
    else resolveCrossRefFromMarkers tbl rest ts tx

/-- Article annotation registration (the assignments into
self.annotations inside _extract_articles). -/
def applyArticles (arts : List ( Annotation × String))
    (anns : List (String × Annotation)) : List (String × Annotation) :=
  arts.foldl (fun anns p => insertAL anns p.1.id p.1) anns

/-- The verse-to-articles mapping returned by _extract_articles. -/
def articleIdsFor (arts : List ( Annotation × String)) (v : String) : List String :=
  (arts.filter (fun p => p.2 = v)).map (fun p => p.1.id)

/-- One back-reference append: the verse id is added to the
annotation's passage_ids when the annotation exists and the id is not
yet present. -/
def updateAnnPassage (anns : List (String × Annotation)) (annId verseId : String) :
    List (String × Annotation) :=
  match lookupAL anns annId with
  | some a =>
    if a.passage_ids.contains verseId then anns
    else insertAL anns annId { a with passage_ids := a.passage_ids ++ [verseId] }
  | none => anns

/-- The verse's variant ids from the pre-collected variant map. -/
def verseVariants (fd : FileData) (ve : VerseElem) : List String :=
  (lookupAL fd.variantMarkers ve.id).getD []

/-- The annotation ids whose passage_ids receive this verse: study,
liturgical, pre-collected variant, citation. -/
def combinedIds (fd : FileData) (ve : VerseElem) : List String :=
  ve.studyIds ++ ve.liturgicalIds ++ verseVariants fd ve ++ ve.citationIds

/-- The Passage record built for one matched verse element. -/
def builtPassage (book : Book) (abbrevToBook : List (String × String))
    (tbl : List (String × CrossRefEntry)) (fd : FileData) (ve : VerseElem)
    (ab : String) (ch vs : Nat) : Passage :=
  { id := ve.id,
    book_id := (lookupAL abbrevToBook ab).getD book.id,
    chapter := ch, verse := vs,
    text := ve.text, html := ve.html, format := ve.fmt,
    study_note_ids := ve.studyIds, liturgical_ids := ve.liturgicalIds,
    variant_ids := verseVariants fd ve, citation_ids := ve.citationIds,
    article_ids := articleIdsFor fd.articles ve.id,
    cross_ref_targets :=
      (resolveCrossRefFromMarkers tbl (lookupMarkers fd.markers ve.id) [] none).1,
    cross_ref_text :=
      (resolveCrossRefFromMarkers tbl (lookupMarkers fd.markers ve.id) [] none).2,
    annotation_markers := lookupMarkers fd.markers ve.id }

/-- One iteration of the element loop of _parse_book_file. -/
def processVerse (book : Book) (abbrevToBook : List (String × String))
    (tbl : List (String × CrossRefEntry)) (fd : FileData)
    (st : PState) (ve : VerseElem) : PState :=
  match matchBookVerseId book.abbreviations ve.id with
  | none => st
  | some (ab, ch, vs) =>
    ⟨insertAL st.passages ve.id (builtPassage book abbrevToBook tbl fd ve ab ch vs),
     (combinedIds fd ve).foldl
       (fun anns aid => updateAnnPassage anns aid ve.id) st.annotations⟩

/-- The _parse_book_file method over one file's extracted data:
articles are registered first, then the verse elements are processed in
document order. -/
def processBookFile (abbrevToBook : List (String × String))
    (tbl : List (String × CrossRefEntry)) (book : Book) (fd : FileData)
    (st : PState) : PState :=
  let st1 : PState := ⟨st.passages, applyArticles fd.articles st.annotations⟩
  fd.verses.foldl (processVerse book abbrevToBook tbl fd) st1

/-- The _parse_passages loop: every book's files in order (flattened to
book-file pairs). -/
def runPipeline (abbrevToBook : List (String × String))
    (tbl : List (String × CrossRefEntry)) (runs : List (Book × FileData))
    (st0 : PState) : PState :=
  runs.foldl (fun st bf => processBookFile abbrevToBook tbl bf.1 bf.2 st) st0

/-! # Theorems -/

/-! ## Helper lemmas for the clean-text scanners -/

theorem dropCapPeriodGo_five (f : Nat) (c1 c2 : Char) (rest : List Char) :
    dropCapPeriodGo (f + 1) ('.' :: ' ' :: c1 :: ' ' :: c2 :: rest) =
      if isUpperA c1 && isLowerA c2 then
        '.' :: ' ' :: c1 :: c2 :: dropCapPeriodGo f rest
      else '.' :: dropCapPeriodGo f (' ' :: c1 :: ' ' :: c2 :: rest) := by
  rfl

theorem dropCapPeriodGo_step (f : Nat) (c : Char) (rest : List Char)
    (h : ¬(c = '.' ∧ ∃ c1 c2 r, rest = ' ' :: c1 :: ' ' :: c2 :: r)) :
    dropCapPeriodGo (f + 1) (c :: rest) = c :: dropCapPeriodGo f rest := by
  simp only [dropCapPeriodGo]
  split
  · next heq => exact absurd heq (by simp)
  · next l2 c1 c2 r heq =>
    rw [List.cons.injEq] at heq
    exact absurd ⟨heq.1, c1, c2, r, heq.2⟩ h
  · next c0 r0 heq =>
    rw [List.cons.injEq] at heq
    rw [heq.1, heq.2]

theorem dropCapPeriodGo_congr (n : Nat) :
    ∀ (f1 f2 : Nat) (l : List Char), l.length ≤ n → l.length ≤ f1 →
      l.length ≤ f2 → dropCapPeriodGo f1 l = dropCapPeriodGo f2 l := by
  induction n with
  | zero =>
    intro f1 f2 l h _ _
    have hl : l = [] := by cases l <;> simp_all
    subst hl
    cases f1 <;> cases f2 <;> simp [dropCapPeriodGo]
  | succ n ih =>
    intro f1 f2 l h h1 h2
    match l with
    | [] => cases f1 <;> cases f2 <;> simp [dropCapPeriodGo]
    | c :: rest =>
      obtain ⟨f1p, rfl⟩ : ∃ k, f1 = k + 1 := ⟨f1 - 1, by simp at h1; omega⟩
      obtain ⟨f2p, rfl⟩ : ∃ k, f2 = k + 1 := ⟨f2 - 1, by simp at h2; omega⟩
      simp only [List.length_cons] at h h1 h2
      by_cases h5 : c = '.' ∧ ∃ c1 c2 r, rest = ' ' :: c1 :: ' ' :: c2 :: r
      · obtain ⟨rfl, c1, c2, r, rfl⟩ := h5
        rw [dropCapPeriodGo_five, dropCapPeriodGo_five]
        simp only [List.length_cons] at h h1 h2
        by_cases hc : (isUpperA c1 && isLowerA c2) = true
        · rw [if_pos hc, if_pos hc,
            ih f1p f2p r (by omega) (by omega) (by omega)]
        · rw [if_neg hc, if_neg hc,
            ih f1p f2p (' ' :: c1 :: ' ' :: c2 :: r) (by simp; omega)
              (by simp; omega) (by simp; omega)]
      · rw [dropCapPeriodGo_step f1p c rest h5, dropCapPeriodGo_step f2p c rest h5,
          ih f1p f2p rest (by omega) (by omega) (by omega)]

/-- Fuel irrelevance for the after-period drop-cap scan. -/
theorem dropCapPeriodGo_eq (f : Nat) (l : List Char) (h : l.length ≤ f) :
    dropCapPeriodGo f l = dropCapPeriod l :=
  dropCapPeriodGo_congr l.length f l.length l le_rfl h le_rfl

theorem dropCapStart_join (c1 c2 : Char) (rest : List Char)
    (h1 : isUpperA c1 = true) (h2 : isLowerA c2 = true) :
    dropCapStart (c1 :: ' ' :: c2 :: rest) = c1 :: c2 :: rest := by
  simp [dropCapStart, h1, h2]

theorem dropCapPeriod_join (c1 c2 : Char) (rest : List Char)
    (h1 : isUpperA c1 = true) (h2 : isLowerA c2 = true) :
    dropCapPeriod ('.' :: ' ' :: c1 :: ' ' :: c2 :: rest) =
      '.' :: ' ' :: c1 :: c2 :: dropCapPeriod rest := by
  show dropCapPeriodGo ('.' :: ' ' :: c1 :: ' ' :: c2 :: rest).length
    ('.' :: ' ' :: c1 :: ' ' :: c2 :: rest) = _
  rw [show ('.' :: ' ' :: c1 :: ' ' :: c2 :: rest).length = (rest.length + 4) + 1 by
    simp]
  rw [dropCapPeriodGo_five, if_pos (by simp [h1, h2])]
  rw [dropCapPeriodGo_eq (rest.length + 4) rest (by omega)]

theorem dropWhile_append_all {p : Char → Bool} {l1 l2 : List Char}
    (h : ∀ c ∈ l1, p c = true) : (l1 ++ l2).dropWhile p = l2.dropWhile p := by
  induction l1 with
  | nil => simp
  | cons c rest ih =>
    simp only [List.cons_append, List.dropWhile_cons]
    rw [h c (by simp), if_pos rfl]
    exact ih (fun d hd => h d (by simp [hd]))

theorem isWs_not_digit {c : Char} (h : isWs c = true) : isDigitA c = false := by
  simp only [isWs, Bool.or_eq_true, decide_eq_true_eq] at h
  rcases h with ((((((h | h) | h) | h) | h) | h) | h) <;> subst h <;> decide

theorem stripLeadingNumber_strip (ds ws r : List Char) (hds : ds ≠ [])
    (hd : ∀ c ∈ ds, isDigitA c = true) (hws : ws ≠ [])
    (hw : ∀ c ∈ ws, isWs c = true)
    (hr : ∀ c, r.head? = some c → isWs c = false) :
    stripLeadingNumber (ds ++ ws ++ r) = r := by
  match ds, hds with
  | d :: ds2, _ =>
    match ws, hws with
    | w :: ws2, _ =>
      have hwd : isDigitA w = false := isWs_not_digit (hw w (by simp))
      have htake : ¬((d :: ds2 ++ (w :: ws2 ++ r)).takeWhile isDigitA).isEmpty := by
        simp [List.takeWhile_cons, hd d (by simp)]
      have hdrop1 : (d :: ds2 ++ (w :: ws2 ++ r)).dropWhile isDigitA
          = w :: ws2 ++ r := by
        rw [show d :: ds2 ++ (w :: ws2 ++ r) = (d :: ds2) ++ (w :: ws2 ++ r) by simp]
        rw [dropWhile_append_all hd]
        simp [List.dropWhile_cons, hwd]
      have htake2 : ¬((w :: ws2 ++ r).takeWhile isWs).isEmpty := by
        simp [List.takeWhile_cons, hw w (by simp)]
      have hdrop2 : (w :: ws2 ++ r).dropWhile isWs = r := by
        rw [show w :: ws2 ++ r = (w :: ws2) ++ r by simp]
        rw [dropWhile_append_all hw]
        match r with
        | [] => simp
        | c :: r2 => simp [List.dropWhile_cons, hr c rfl]
      simp only [stripLeadingNumber, List.append_assoc]
      rw [if_neg htake, hdrop1, if_neg htake2, hdrop2]

/-- C8: text cleaning joins the drop-cap artifact of one capital, a
space and a lowercase letter both at the start of the text and right
after a sentence-ending period, strips a leading standalone integer
followed by whitespace, and in particular cleans the drop-cap scenario
input to the expected string. -/
theorem claim_C8 :
    cleanText "T he beginning" = "The beginning"
    ∧ (∀ c1 c2 rest, isUpperA c1 = true → isLowerA c2 = true →
        dropCapStart (c1 :: ' ' :: c2 :: rest) = c1 :: c2 :: rest)
    ∧ (∀ c1 c2 rest, isUpperA c1 = true → isLowerA c2 = true →
        dropCapPeriod ('.' :: ' ' :: c1 :: ' ' :: c2 :: rest) =
          '.' :: ' ' :: c1 :: c2 :: dropCapPeriod rest)
    ∧ (∀ ds ws r, ds ≠ [] → (∀ c ∈ ds, isDigitA c = true) → ws ≠ [] →
        (∀ c ∈ ws, isWs c = true) → (∀ c, r.head? = some c → isWs c = false) →
        stripLeadingNumber (ds ++ ws ++ r) = r) :=
  ⟨by decide, dropCapStart_join, dropCapPeriod_join, stripLeadingNumber_strip⟩

theorem claim_C8_witness :
    cleanText "T he beginning" = "The beginning"
    ∧ dropCapStart ('T' :: ' ' :: 'h' :: "e".data) = 'T' :: 'h' :: "e".data
    ∧ dropCapPeriod ('.' :: ' ' :: 'T' :: ' ' :: 'h' :: []) =
        '.' :: ' ' :: 'T' :: 'h' :: dropCapPeriod []
    ∧ stripLeadingNumber ("12".data ++ " ".data ++ "abc".data) = "abc".data :=
  ⟨claim_C8.1,
   claim_C8.2.1 'T' 'h' "e".data (by decide) (by decide),
   claim_C8.2.2.1 'T' 'h' [] (by decide) (by decide),
   claim_C8.2.2.2 "12".data " ".data "abc".data (by decide) (by decide)
     (by decide) (by decide) (by decide)⟩

/-- C9: styled-text extraction is non-destructive and deterministic: the
source subtree is returned unchanged as the post-call state, and a
second extraction on that state yields the same output string. -/
theorem claim_C9 (e : Node) :
    (extractStyledTextSt e).2 = e ∧
      (extractStyledTextSt ((extractStyledTextSt e).2)).1 = (extractStyledTextSt e).1 :=
  ⟨rfl, rfl⟩

/-! ## C3: preceding-text truncation -/

theorem truncatePreceding_of_le {r : List Char} (h : r.length ≤ 40) :
    truncatePreceding r = r := by
  unfold truncatePreceding
  rw [if_neg (by omega)]

theorem truncatePreceding_trim {r : List Char} {i : Nat} (h40 : 40 < r.length)
    (hi : findIdx ' ' (r.drop (r.length - 40)) = some i) (h0 : 0 < i)
    (h10 : i < 10) :
    truncatePreceding r = (r.drop (r.length - 40)).drop (i + 1) := by
  have hcond : (decide (0 < i) && decide (i < 10)) = true := by
    simp only [Bool.and_eq_true, decide_eq_true_eq]
    exact ⟨h0, h10⟩
  simp only [truncatePreceding, if_pos h40, hi, hcond, if_true]

theorem truncatePreceding_noTrim {r : List Char} {i : Nat} (h40 : 40 < r.length)
    (hi : findIdx ' ' (r.drop (r.length - 40)) = some i) (h : i = 0 ∨ 10 ≤ i) :
    truncatePreceding r = r.drop (r.length - 40) := by
  have hcond : (decide (0 < i) && decide (i < 10)) = false := by
    simp only [Bool.and_eq_false_iff, decide_eq_false_iff_not]
    rcases h with h | h
    · exact Or.inl (by omega)
    · exact Or.inr (by omega)
  simp only [truncatePreceding, if_pos h40, hi, hcond, Bool.false_eq_true, if_false]

theorem truncatePreceding_noSpace {r : List Char} (h40 : 40 < r.length)
    (hi : findIdx ' ' (r.drop (r.length - 40)) = none) :
    truncatePreceding r = r.drop (r.length - 40) := by
  simp only [truncatePreceding, if_pos h40, hi]

theorem truncatePreceding_length (r : List Char) :
    (truncatePreceding r).length ≤ 40 := by
  by_cases h40 : 40 < r.length
  · cases h : findIdx ' ' (r.drop (r.length - 40)) with
    | none => rw [truncatePreceding_noSpace h40 h]; simp; omega
    | some i =>
      by_cases h0 : 0 < i ∧ i < 10
      · rw [truncatePreceding_trim h40 h h0.1 h0.2]; simp; omega
      · rw [truncatePreceding_noTrim h40 h (by omega)]; simp; omega
  · rw [truncatePreceding_of_le (by omega)]; omega

/-- C3 counterexample: a backward walk collecting a cleaned text of 41
characters whose 40-character suffix starts with a space.  The first
space of the truncated text falls within its first 10 characters (at
index 0), yet the code does not trim past it: the result keeps the
space and has length 40, not 39 as the claim's trimming rule requires. -/
theorem claim_C3_counterexample :
    (cleanTextL ((walkPreceding
        [⟨[.text ("q " ++ String.mk (List.replicate 39 'R'))], some "p"⟩]
        0).reverse.flatten)).length = 41
    ∧ findIdx ' '
        ((cleanTextL ((walkPreceding
          [⟨[.text ("q " ++ String.mk (List.replicate 39 'R'))], some "p"⟩]
          0).reverse.flatten)).drop 1) = some 0
    ∧ (getPrecedingTextL
        [⟨[.text ("q " ++ String.mk (List.replicate 39 'R'))], some "p"⟩]).length = 40
    ∧ (getPrecedingTextL
        [⟨[.text ("q " ++ String.mk (List.replicate 39 'R'))], some "p"⟩]).head?
        = some ' ' := by
  decide

/-- C3 amended: every preceding string has length at most 40; when the
cleaned collected text exceeds 40 characters it is truncated to its last
40, and it is further trimmed to start just after the first space only
when that space sits at an index strictly between 0 and 10 of the
truncated text (a space at index 0, or at index 10 or later, leaves the
truncation unchanged). -/
theorem claim_C3_amended (fr : List Frame) :
    (getPrecedingTextL fr).length ≤ 40
    ∧ (∀ r, r = cleanTextL ((walkPreceding fr 0).reverse.flatten) →
        (r.length ≤ 40 → getPrecedingTextL fr = r)
        ∧ (∀ i, 40 < r.length → findIdx ' ' (r.drop (r.length - 40)) = some i →
            0 < i → i < 10 →
            getPrecedingTextL fr = (r.drop (r.length - 40)).drop (i + 1))
        ∧ (∀ i, 40 < r.length → findIdx ' ' (r.drop (r.length - 40)) = some i →
            (i = 0 ∨ 10 ≤ i) →
            getPrecedingTextL fr = r.drop (r.length - 40))
        ∧ (40 < r.length → findIdx ' ' (r.drop (r.length - 40)) = none →
            getPrecedingTextL fr = r.drop (r.length - 40))) := by
  refine ⟨truncatePreceding_length _, ?_⟩
  intro r hr
  refine ⟨?_, ?_, ?_, ?_⟩
  · intro hle
    rw [getPrecedingTextL, ← hr, truncatePreceding_of_le hle]
  · intro i h40 hi h0 h10
    rw [getPrecedingTextL, ← hr, truncatePreceding_trim h40 hi h0 h10]
  · intro i h40 hi h
    rw [getPrecedingTextL, ← hr, truncatePreceding_noTrim h40 hi h]
  · intro h40 hi
    rw [getPrecedingTextL, ← hr, truncatePreceding_noSpace h40 hi]

theorem claim_C3_witness :
    (getPrecedingTextL [⟨[.text "glory to God"], some "p"⟩]).length ≤ 40
    ∧ getPrecedingTextL [⟨[.text "glory to God"], some "p"⟩] = "glory to God".data :=
  ⟨(claim_C3_amended [⟨[.text "glory to God"], some "p"⟩]).1,
   ((claim_C3_amended [⟨[.text "glory to God"], some "p"⟩]).2
     ("glory to God".data) (by decide)).1 (by decide)⟩

/-! ## C1: prose verse boundary -/

/-- An item that terminates the collecting scan: a tag whose id matches
the book's verse pattern and differs from the current verse. -/
def isOtherVerseTag (ab verseId : String) : SItem → Bool
  | .tag _ oid =>
    match oid with
    | some d => isVerseIdFor ab d && d ≠ verseId
    | none => false
  | .str _ _ _ => false

/-- The contribution of one item to the collected parts: nonblank text
runs wrapped in their emphasis context; tags contribute nothing. -/
def wrapOfItem : SItem → Option String
  | .str s inI inB =>
    if !(trimWs s.data).isEmpty then some (wrapStyled s inI inB) else none
  | .tag _ _ => none

def isStartTag (sa : String) : SItem → Bool
  | .tag _ oid => oid = some sa
  | .str _ _ _ => false

/-- Dropping the skip phase: everything up to and including the start
marker is discarded. -/
def skipToMarker (sa : String) (items : List SItem) : List SItem :=
  (items.dropWhile (fun i => !isStartTag sa i)).drop 1

theorem extractUntilGo_collect (ab verseId sa : String) (items : List SItem) :
    extractUntilGo ab verseId sa items true =
      ((items.takeWhile fun i => !isOtherVerseTag ab verseId i).filterMap wrapOfItem,
       items.any (isOtherVerseTag ab verseId)) := by
  induction items with
  | nil => rfl
  | cons it rest ih =>
    cases it with
    | tag n oid =>
      cases oid with
      | none =>
        simp only [extractUntilGo, Bool.not_true, Bool.false_eq_true, if_false]
        simp [ih, List.takeWhile_cons, List.any_cons, isOtherVerseTag, wrapOfItem]
      | some d =>
        by_cases h : (isVerseIdFor ab d && decide (d ≠ verseId)) = true
        · simp only [extractUntilGo, Bool.not_true, Bool.false_eq_true, if_false]
          rw [if_pos h]
          simp only [decide_not] at h
          simp [List.takeWhile_cons, List.any_cons, isOtherVerseTag, h]
        · simp only [extractUntilGo, Bool.not_true, Bool.false_eq_true, if_false]
          rw [if_neg h]
          rw [Bool.not_eq_true] at h
          simp only [decide_not] at h
          simp [ih, List.takeWhile_cons, List.any_cons, isOtherVerseTag, wrapOfItem, h]
    | str s inI inB =>
      simp only [extractUntilGo, Bool.not_true, Bool.false_eq_true, if_false]
      by_cases h : (trimWs s.data).isEmpty = true
      · rw [if_neg (by simp [h])]
        simp [ih, List.takeWhile_cons, List.any_cons, isOtherVerseTag, wrapOfItem, h]
      · rw [if_pos (by simp [h])]
        simp [ih, List.takeWhile_cons, List.any_cons, isOtherVerseTag, wrapOfItem, h]

theorem extractUntilGo_skip (ab verseId sa : String) (items : List SItem) :
    extractUntilGo ab verseId sa items false =
      extractUntilGo ab verseId sa (skipToMarker sa items) true := by
  induction items with
  | nil => rfl
  | cons it rest ih =>
    cases it with
    | tag n oid =>
      by_cases h : oid = some sa
      · subst h
        simp only [extractUntilGo, Bool.not_false, if_true]
        rw [show (decide True) = true by simp]
        rw [extractUntilGo_collect, extractUntilGo_collect]
        simp [skipToMarker, List.dropWhile_cons, isStartTag]
      · simp only [extractUntilGo, Bool.not_false, if_true]
        rw [show decide (oid = some sa) = false by simp [h]]
        rw [ih]
        simp [skipToMarker, List.dropWhile_cons, isStartTag, h]
    | str s inI inB =>
      simp only [extractUntilGo, Bool.not_false, if_true]
      rw [ih]
      simp [skipToMarker, List.dropWhile_cons, isStartTag]

def c1anchor1 : Node := Node.elem "sup" [("id", "Gen_vchap1-1")] [.text "1"]

def c1anchor2 : Node := Node.elem "sup" [("id", "Gen_vchap1-2")] [.text "2"]

/-- The scenario paragraph: two prose verses in one paragraph. -/
def c1paragraph : Node :=
  Node.elem "p" [("class", "tx")]
    [c1anchor1, .text "In the beginning God made heaven and earth.",
     c1anchor2, .text "The earth was invisible and unfurnished."]

/-- C1: the prose segmenter collects styled text after the verse's own
anchor and stops at the first other verse anchor of the same book,
excluding that anchor's content: the collected parts are exactly the
wrapped nonblank text runs strictly before the boundary (after the
start marker), and in the two-verses-in-one-paragraph scenario verse
one's extracted text is exactly its own sentence and contains no
characters of verse two. -/
theorem claim_C1 :
    (∀ ab verseId sa items,
      extractStyledUntilBoundary ab verseId (some sa) items =
        (((skipToMarker sa items).takeWhile
            fun i => !isOtherVerseTag ab verseId i).filterMap wrapOfItem,
         (skipToMarker sa items).any (isOtherVerseTag ab verseId)))
    ∧ (∀ ab verseId items,
      extractStyledUntilBoundary ab verseId none items =
        ((items.takeWhile fun i => !isOtherVerseTag ab verseId i).filterMap wrapOfItem,
         items.any (isOtherVerseTag ab verseId)))
    ∧ (extractProseVerse c1anchor1 (some c1paragraph) [] "Gen_vchap1-1" "Gen").2 =
        "In the beginning God made heaven and earth."
    ∧ hasSubstr "The earth was invisible and unfurnished.".data
        (extractProseVerse c1anchor1 (some c1paragraph) [] "Gen_vchap1-1" "Gen").2.data
        = false
    ∧ hasSubstr "invisible".data
        (extractProseVerse c1anchor1 (some c1paragraph) [] "Gen_vchap1-1" "Gen").2.data
        = false :=
  ⟨fun ab verseId sa items => by
     show extractUntilGo ab verseId sa items false = _
     rw [extractUntilGo_skip, extractUntilGo_collect],
   fun ab verseId items => by
     show extractUntilGo ab verseId "" items true = _
     rw [extractUntilGo_collect],
   by decide, by decide, by decide⟩

/-! ## Association-list lemmas for the orchestration state -/

theorem lookupAL_of_map_replace {α : Type} (m : List (String × α)) (k : String)
    (v : α) (h : m.any (fun p => p.1 = k) = true) :
    lookupAL (m.map (fun p => if p.1 = k then (k, v) else p)) k = some v := by
  induction m with
  | nil => simp at h
  | cons p0 rest ih =>
    by_cases h0 : p0.1 = k
    · simp only [List.map_cons, if_pos h0, lookupAL]
      rw [List.find?_cons_of_pos _ (by simp)]
      rfl
    · simp only [List.any_cons, Bool.or_eq_true, decide_eq_true_eq] at h
      rcases h with h | h
      · exact absurd h h0
      · simp only [List.map_cons, if_neg h0, lookupAL]
        rw [List.find?_cons_of_neg _ (by simp [h0])]
        exact ih h

theorem lookupAL_append_right {α : Type} (m : List (String × α)) (k : String)
    (v : α) (h : m.any (fun p => p.1 = k) = false) :
    lookupAL (m ++ [(k, v)]) k = some v := by
  induction m with
  | nil => simp [lookupAL]
  | cons p0 rest ih =>
    simp only [List.any_cons, Bool.or_eq_false_iff, decide_eq_false_iff_not] at h
    simp only [List.cons_append, lookupAL]
    rw [List.find?_cons_of_neg _ (by simp [h.1])]
    exact ih (by simp [h.2])

theorem lookupAL_insert {α : Type} (m : List (String × α)) (k : String) (v : α) :
    lookupAL (insertAL m k v) k = some v := by
  unfold insertAL
  by_cases h : m.any (fun p => p.1 = k) = true
  · rw [if_pos h]
    exact lookupAL_of_map_replace m k v h
  · rw [if_neg h]
    exact lookupAL_append_right m k v (Bool.eq_false_iff.mpr h)

theorem lookupAL_map_replace_ne {α : Type} (m : List (String × α)) (k k2 : String)
    (v : α) (h : k2 ≠ k) :
    lookupAL (m.map (fun p => if p.1 = k then (k, v) else p)) k2 = lookupAL m k2 := by
  induction m with
  | nil => rfl
  | cons p0 rest ih =>
    by_cases h0 : p0.1 = k
    · simp only [List.map_cons, if_pos h0, lookupAL]
      rw [List.find?_cons_of_neg _ (by simp; exact fun hk => absurd hk.symm h),
        List.find?_cons_of_neg _ (by
          simp
          intro hk
          rw [h0] at hk
          exact absurd hk.symm h)]
      exact ih
    · simp only [List.map_cons, if_neg h0, lookupAL]
      by_cases hp : p0.1 = k2
      · rw [List.find?_cons_of_pos _ (by simp [hp]),
          List.find?_cons_of_pos _ (by simp [hp])]
      · rw [List.find?_cons_of_neg _ (by simp [hp]),
          List.find?_cons_of_neg _ (by simp [hp])]
        exact ih

theorem lookupAL_append_one_ne {α : Type} (m : List (String × α)) (k k2 : String)
    (v : α) (h : k2 ≠ k) :
    lookupAL (m ++ [(k, v)]) k2 = lookupAL m k2 := by
  induction m with
  | nil =>
    simp only [List.nil_append, lookupAL]
    rw [List.find?_cons_of_neg _ (by simp; exact fun hk => absurd hk.symm h)]
  | cons p0 rest ih =>
    simp only [List.cons_append, lookupAL]
    by_cases hp : p0.1 = k2
    · rw [List.find?_cons_of_pos _ (by simp [hp]),
        List.find?_cons_of_pos _ (by simp [hp])]
    · rw [List.find?_cons_of_neg _ (by simp [hp]),
        List.find?_cons_of_neg _ (by simp [hp])]
      exact ih

theorem lookupAL_insert_ne {α : Type} (m : List (String × α)) (k k2 : String)
    (v : α) (h : k2 ≠ k) : lookupAL (insertAL m k v) k2 = lookupAL m k2 := by
  unfold insertAL
  split
  · exact lookupAL_map_replace_ne m k k2 v h
  · exact lookupAL_append_one_ne m k k2 v h

theorem mem_insertAL {α : Type} {m : List (String × α)} {k : String} {v : α}
    {p : String × α} (h : p ∈ insertAL m k v) :
    p = (k, v) ∨ (p ∈ m ∧ p.1 ≠ k) := by
  unfold insertAL at h
  split at h
  · next hany =>
    rw [List.mem_map] at h
    obtain ⟨q, hq, hfq⟩ := h
    by_cases h0 : q.1 = k
    · rw [if_pos h0] at hfq
      exact Or.inl hfq.symm
    · rw [if_neg h0] at hfq
      subst hfq
      exact Or.inr ⟨hq, h0⟩
  · next hany =>
    rw [List.mem_append] at h
    rcases h with h | h
    · refine Or.inr ⟨h, ?_⟩
      intro hk
      rw [Bool.not_eq_true] at hany
      have := List.any_eq_false.mp hany p h
      simp [hk] at this
    · simp at h
      exact Or.inl h

/-! ## C2: cross-reference resolution -/

theorem resolveCrossRef_stable (tbl : List (String × CrossRefEntry))
    (markers : List AnnotationMarker) (ts : List String) (tx : Option String)
    (h : ts ≠ []) : resolveCrossRefFromMarkers tbl markers ts tx = (ts, tx) := by
  induction markers with
  | nil => rfl
  | cons m rest ih =>
    have hts : ts.isEmpty = false := by
      cases ts with
      | nil => exact absurd rfl h
      | cons a l => rfl
    unfold resolveCrossRefFromMarkers
    split
    · cases hl : lookupAL tbl m.id with
      | none => exact ih
      | some cr => simp [hts, ih]
    · exact ih

theorem resolveCrossRef_first_wins (tbl : List (String × CrossRefEntry))
    (markers : List AnnotationMarker) (m : AnnotationMarker) (t0 : String)
    (ts : List String) (txt html : String)
    (hfirst : markers.find? (fun mk => mk.type = "cross_ref") = some m)
    (hres : lookupAL tbl m.id = some ⟨t0 :: ts, txt, html⟩) :
    resolveCrossRefFromMarkers tbl markers [] none = (t0 :: ts, some txt) := by
  induction markers with
  | nil => simp at hfirst
  | cons m0 rest ih =>
    by_cases h0 : (m0.type = "cross_ref")
    · rw [List.find?_cons_of_pos _ (by simp [h0])] at hfirst
      have hm : m0 = m := by simpa using hfirst
      subst hm
      unfold resolveCrossRefFromMarkers
      rw [if_pos (by simp [h0]), hres]
      simp only [List.isEmpty_cons, Bool.not_false, List.isEmpty_nil, Bool.and_true,
        Bool.true_and, if_true]
      exact resolveCrossRef_stable tbl rest (t0 :: ts) (some txt) (by simp)
    · rw [List.find?_cons_of_neg _ (by simp [h0])] at hfirst
      unfold resolveCrossRefFromMarkers
      rw [if_neg (by simp [h0])]
      exact ih hfirst

/-- C2: a verse whose first cross-reference marker resolves to a table
entry with nonempty targets and a display text gets exactly that entry's
targets and text on its emitted Passage; later cross-reference markers
of the same verse are discarded, never merged. -/
theorem claim_C2 (book : Book) (abbrevToBook : List (String × String))
    (tbl : List (String × CrossRefEntry)) (fd : FileData) (st : PState)
    (ve : VerseElem) (ab : String) (ch vs : Nat) (m : AnnotationMarker)
    (A B txt html : String)
    (hmatch : matchBookVerseId book.abbreviations ve.id = some (ab, ch, vs))
    (hfirst : (lookupMarkers fd.markers ve.id).find?
        (fun mk => mk.type = "cross_ref") = some m)
    (hres : lookupAL tbl m.id = some ⟨[A, B], txt, html⟩) :
    ∃ p : Passage,
      lookupAL (processVerse book abbrevToBook tbl fd st ve).passages ve.id = some p
      ∧ p.cross_ref_targets = [A, B] ∧ p.cross_ref_text = some txt := by
  unfold processVerse
  rw [hmatch]
  refine ⟨_, lookupAL_insert _ _ _, ?_, ?_⟩
  · show (resolveCrossRefFromMarkers tbl (lookupMarkers fd.markers ve.id) [] none).1 = _
    rw [resolveCrossRef_first_wins tbl _ m A [B] txt html hfirst hres]
  · show (resolveCrossRefFromMarkers tbl (lookupMarkers fd.markers ve.id) [] none).2 = _
    rw [resolveCrossRef_first_wins tbl _ m A [B] txt html hfirst hres]

theorem claim_C2_witness :
    ∃ p : Passage,
      lookupAL (processVerse
        ⟨"genesis", "Genesis", ["Gen"], (1 : ℚ), "old", ["Genesis.html"]⟩
        [("Gen", "genesis")]
        [("fcross1", ⟨["A", "B"], "see also", ""⟩),
         ("fcross2", ⟨["C"], "other", ""⟩)]
        ⟨[], [], [("Gen_vchap1-1",
            [⟨"fcross1", "cross_ref", "x"⟩, ⟨"fcross2", "cross_ref", "y"⟩])], []⟩
        ⟨[], []⟩
        ⟨"Gen_vchap1-1", [], [], [], "text", "html", "prose"⟩).passages
        "Gen_vchap1-1" = some p
      ∧ p.cross_ref_targets = ["A", "B"] ∧ p.cross_ref_text = some "see also" :=
  claim_C2 ⟨"genesis", "Genesis", ["Gen"], (1 : ℚ), "old", ["Genesis.html"]⟩
    [("Gen", "genesis")]
    [("fcross1", ⟨["A", "B"], "see also", ""⟩), ("fcross2", ⟨["C"], "other", ""⟩)]
    ⟨[], [], [("Gen_vchap1-1",
        [⟨"fcross1", "cross_ref", "x"⟩, ⟨"fcross2", "cross_ref", "y"⟩])], []⟩
    ⟨[], []⟩
    ⟨"Gen_vchap1-1", [], [], [], "text", "html", "prose"⟩
    "Gen" 1 1 ⟨"fcross1", "cross_ref", "x"⟩ "A" "B" "see also" ""
    (by decide) (by decide) (by decide)

/-! ## C10: marker ordering -/

/-- The markers of one kind attached to a verse, in document order of
the anchors. -/
def kindMarkersFor (ty : String) (filt : String → Bool)
    (ex : String → Option String) (links : List MarkerLink) (v : String) :
    List AnnotationMarker :=
  links.filterMap (fun link =>
    if filt link.href then
      match ex link.href with
      | none => none
      | some mid =>
        match link.verseId with
        | some v2 =>
          if v2 = v then some ⟨mid, ty, getPrecedingText link.ctx⟩ else none
        | none => none
    else none)

theorem lookupMarkers_appendMarker (acc : List (String × List AnnotationMarker))
    (v v2 : String) (mk : AnnotationMarker) :
    lookupMarkers (appendMarker acc v mk) v2 =
      if v2 = v then lookupMarkers acc v2 ++ [mk] else lookupMarkers acc v2 := by
  induction acc with
  | nil =>
    by_cases h : v2 = v
    · subst h
      simp [appendMarker, lookupMarkers]
    · simp [appendMarker, lookupMarkers, h, Ne.symm h]
  | cons p0 rest ih =>
    obtain ⟨k, l⟩ := p0
    by_cases hk : k = v
    · subst hk
      by_cases h2 : v2 = k
      · subst h2
        simp [appendMarker, lookupMarkers]
      · simp [appendMarker, lookupMarkers, h2, Ne.symm h2]
    · have hstep : appendMarker ((k, l) :: rest) v mk = (k, l) :: appendMarker rest v mk := by
        simp [appendMarker, hk]
      by_cases h2 : v2 = k
      · subst h2
        rw [hstep]
        simp [lookupMarkers, hk]
      · rw [hstep]
        have hlk : ∀ m2 : List (String × List AnnotationMarker),
            lookupMarkers ((k, l) :: m2) v2 = lookupMarkers m2 v2 := by
          intro m2
          simp only [lookupMarkers]
          rw [List.find?_cons_of_neg _ (by simp; exact fun hc => h2 hc.symm)]
        rw [hlk, hlk]
        exact ih

theorem collectKind_char (ty : String) (filt : String → Bool)
    (ex : String → Option String) (links : List MarkerLink) :
    ∀ acc v, lookupMarkers (collectKind ty filt ex links acc) v =
      lookupMarkers acc v ++ kindMarkersFor ty filt ex links v := by
  induction links with
  | nil => intro acc v; simp [collectKind, kindMarkersFor]
  | cons link rest ih =>
    intro acc v
    show lookupMarkers (List.foldl _ _ (link :: rest)) v = _
    rw [List.foldl_cons]
    by_cases hf : filt link.href = true
    · cases hex : ex link.href with
      | none =>
        rw [show collectStep ty filt ex acc link = acc by
          simp [collectStep, hf, hex]]
        rw [show List.foldl (collectStep ty filt ex) acc rest
          = collectKind ty filt ex rest acc from rfl]
        rw [ih acc v]
        simp [kindMarkersFor, List.filterMap_cons, hf, hex]
      | some mid =>
        cases hv : link.verseId with
        | none =>
          rw [show collectStep ty filt ex acc link = acc by
            simp [collectStep, hf, hex, hv]]
          rw [show List.foldl (collectStep ty filt ex) acc rest
            = collectKind ty filt ex rest acc from rfl]
          rw [ih acc v]
          simp [kindMarkersFor, List.filterMap_cons, hf, hex, hv]
        | some v2 =>
          rw [show collectStep ty filt ex acc link
              = appendMarker acc v2 ⟨mid, ty, getPrecedingText link.ctx⟩ by
            simp [collectStep, hf, hex, hv]]
          rw [show List.foldl (collectStep ty filt ex)
              (appendMarker acc v2 ⟨mid, ty, getPrecedingText link.ctx⟩) rest
            = collectKind ty filt ex rest
              (appendMarker acc v2 ⟨mid, ty, getPrecedingText link.ctx⟩) from rfl]
          rw [ih _ v, lookupMarkers_appendMarker]
          by_cases hveq : v = v2
          · rw [if_pos hveq]
            simp only [kindMarkersFor, List.filterMap_cons, hf, if_true, hex, hv]
            rw [if_pos hveq.symm]
            try simp [kindMarkersFor]
          · rw [if_neg hveq]
            simp only [kindMarkersFor, List.filterMap_cons, hf, if_true, hex, hv]
            rw [if_neg (fun hc => hveq hc.symm)]
            try simp [kindMarkersFor]
    · rw [show collectStep ty filt ex acc link = acc by simp [collectStep, hf]]
      rw [show List.foldl (collectStep ty filt ex) acc rest
        = collectKind ty filt ex rest acc from rfl]
      rw [ih acc v]
      simp [kindMarkersFor, List.filterMap_cons, hf]

/-- C10: the per-verse marker list of the collector is grouped first by
kind in the fixed study, liturgical, variant, citation, cross_ref
sequence and within a kind by document order of the anchors; it is not
the document-order interleaving across kinds, as the concrete example
of a cross-reference anchor preceding a study anchor shows. -/
theorem claim_C10 :
    (∀ links v, lookupMarkers (collectAnnotationMarkers links) v =
      kindMarkersFor "study" studyFilt studyEx links v
      ++ kindMarkersFor "liturgical" litFilt litEx links v
      ++ kindMarkersFor "variant" varFilt varEx links v
      ++ kindMarkersFor "citation" citFilt citEx links v
      ++ kindMarkersFor "cross_ref" crossFilt crossEx links v)
    ∧ (lookupMarkers (collectAnnotationMarkers
        [⟨"crossReference.html#fcross5", [], some "Gen_vchap1-1"⟩,
         ⟨"study1.html#f7", [], some "Gen_vchap1-1"⟩]) "Gen_vchap1-1").map
        (fun mk => mk.id) = ["f7", "fcross5"]
    ∧ (lookupMarkers (collectAnnotationMarkers
        [⟨"crossReference.html#fcross5", [], some "Gen_vchap1-1"⟩,
         ⟨"study1.html#f7", [], some "Gen_vchap1-1"⟩]) "Gen_vchap1-1").map
        (fun mk => mk.id) ≠ ["fcross5", "f7"] := by
  refine ⟨?_, by decide, by decide⟩
  intro links v
  show lookupMarkers (List.foldl _ [] markerConfigs) v = _
  simp only [markerConfigs, List.foldl_cons, List.foldl_nil]
  rw [collectKind_char, collectKind_char, collectKind_char, collectKind_char,
    collectKind_char]
  simp [lookupMarkers, List.append_assoc]

/-! ## C6: manifest resolver -/

theorem dedupFirst_nodup_aux (l : List String) :
    ∀ acc : List String, acc.Nodup →
      (l.foldl (fun acc a => if acc.contains a then acc else acc ++ [a]) acc).Nodup := by
  induction l with
  | nil => intro acc h; exact h
  | cons a rest ih =>
    intro acc h
    rw [List.foldl_cons]
    by_cases hc : acc.contains a = true
    · rw [if_pos hc]
      exact ih acc h
    · rw [if_neg hc]
      refine ih _ (List.Nodup.append h (List.nodup_singleton a) ?_)
      intro x hx hx1
      simp at hx1
      subst hx1
      exact hc (List.contains_iff_exists_mem_beq.mpr ⟨x, hx, by simp⟩)

theorem dedupFirst_nodup (l : List String) : (dedupFirst l).Nodup :=
  dedupFirst_nodup_aux l [] List.nodup_nil

/-- C6: a file group whose verse ids use exactly two distinct
abbreviations yields two Book entities that share the group's full file
list but carry distinct single abbreviations and order values differing
by the fractional offset of one tenth; and every produced book's
testament is new exactly when the group's manifest ordinal reaches the
cutoff constant, old otherwise. -/
theorem claim_C6 (bookId : String) (files : List ManifestEntry)
    (abbrevsOf : String → List String) (a b : String) (first : ManifestEntry)
    (hhead : (sortEntries files).head? = some first)
    (hab : groupAbbrevs (sortEntries files) abbrevsOf = [a, b]) :
    a ≠ b
    ∧ (∃ b1 b2 : Book, processGroup bookId files abbrevsOf = [b1, b2]
        ∧ b1.abbreviations = [a] ∧ b2.abbreviations = [b]
        ∧ b1.files = (sortEntries files).map (fun f => f.href)
        ∧ b2.files = b1.files
        ∧ b1.order = (first.order : ℚ)
        ∧ b2.order = b1.order + 1 / 10)
    ∧ (∀ bk ∈ processGroup bookId files abbrevsOf,
        bk.testament = if NT_START_ORDER ≤ first.order then "new" else "old") := by
  have hgroup : processGroup bookId files abbrevsOf =
      [{ id := lowerStr a,
         name := (((MULTI_ABBREV_NAMES.find? (fun q => q.1 = a)).map
           (fun q => q.2)).getD a),
         abbreviations := [a],
         order := (first.order : ℚ) + (0 : ℕ) * (1 / 10),
         testament := if NT_START_ORDER ≤ first.order then "new" else "old",
         files := (sortEntries files).map (fun f => f.href) },
       { id := lowerStr b,
         name := (((MULTI_ABBREV_NAMES.find? (fun q => q.1 = b)).map
           (fun q => q.2)).getD b),
         abbreviations := [b],
         order := (first.order : ℚ) + (1 : ℕ) * (1 / 10),
         testament := if NT_START_ORDER ≤ first.order then "new" else "old",
         files := (sortEntries files).map (fun f => f.href) }] := by
    dsimp only [processGroup]
    rw [hhead, hab]
    rfl
  have hne : a ≠ b := by
    have := dedupFirst_nodup ((sortEntries files).map (fun f => abbrevsOf f.href)).flatten
    rw [show dedupFirst ((sortEntries files).map (fun f => abbrevsOf f.href)).flatten
        = groupAbbrevs (sortEntries files) abbrevsOf from rfl, hab] at this
    simp [List.nodup_cons] at this
    exact this
  refine ⟨hne, ⟨_, _, hgroup, rfl, rfl, rfl, rfl, by push_cast; ring, by push_cast; ring⟩, ?_⟩
  intro bk hbk
  rw [hgroup] at hbk
  simp only [List.mem_cons, List.mem_singleton, List.not_mem_nil, or_false] at hbk
  rcases hbk with h | h <;> rw [h]

/-! ## C7: passage id consistency and uniqueness -/

theorem matchBookVerseId_spec {abbrevs : List String} {s ab : String}
    {ch vs : Nat} (h : matchBookVerseId abbrevs s = some (ab, ch, vs)) :
    ab.data.isPrefixOf s.data = true
    ∧ parseVchapTail (s.data.drop ab.data.length) = some (ch, vs) := by
  obtain ⟨a, _, ha⟩ := List.exists_of_findSome?_eq_some h
  by_cases hp : a.data.isPrefixOf s.data = true
  · rw [if_pos hp] at ha
    cases hq : parseVchapTail (s.data.drop a.data.length) with
    | none => rw [hq] at ha; simp at ha
    | some q =>
      obtain ⟨q1, q2⟩ := q
      rw [hq] at ha
      have ha3 : some (a, q1, q2) = some (ab, ch, vs) := ha
      have hinj := Option.some.inj ha3
      simp only [Prod.mk.injEq] at hinj
      obtain ⟨rfl, rfl, rfl⟩ := hinj
      exact ⟨hp, hq⟩
  · rw [if_neg hp] at ha
    exact absurd ha (by simp)

theorem keysOf_insertAL {α : Type} (m : List (String × α)) (k : String) (v : α) :
    (insertAL m k v).map (fun e => e.1) =
      if m.any (fun p => p.1 = k) = true then m.map (fun e => e.1)
      else m.map (fun e => e.1) ++ [k] := by
  unfold insertAL
  split
  · next h =>
    rw [List.map_map]
    apply List.map_congr_left
    intro p _
    by_cases hp : p.1 = k
    · simp [hp]
    · simp [hp]
  · next h =>
    simp

theorem keys_nodup_insertAL {α : Type} {m : List (String × α)} {k : String}
    {v : α} (h : (m.map (fun e => e.1)).Nodup) :
    ((insertAL m k v).map (fun e => e.1)).Nodup := by
  rw [keysOf_insertAL]
  split
  · exact h
  · next hany =>
    refine List.Nodup.append h (List.nodup_singleton k) ?_
    intro x hx hx1
    simp at hx1
    subst hx1
    rw [Bool.not_eq_true, List.any_eq_false] at hany
    obtain ⟨e, he, hek⟩ := List.mem_map.mp hx
    have := hany e he
    simp [hek] at this

/-- The per-entry consistency property of C7: the passage's id matches
the verse-id shape for some abbreviation and re-parsing it yields the
stored chapter and verse, both at least one. -/
def passageIdOk (e : String × Passage) : Prop :=
  e.2.id = e.1
  ∧ ∃ ab : String, ab.data.isPrefixOf e.2.id.data = true
      ∧ parseVchapTail (e.2.id.data.drop ab.data.length)
          = some (e.2.chapter, e.2.verse)
      ∧ 1 ≤ e.2.chapter ∧ 1 ≤ e.2.verse

/-- The C7 state invariant: unique passage keys and consistent entries. -/
def passagesOk (st : PState) : Prop :=
  ((st.passages.map (fun e => e.1)).Nodup) ∧ ∀ e ∈ st.passages, passageIdOk e

theorem processVerse_passagesOk {book : Book} {a2b : List (String × String)}
    {tbl : List (String × CrossRefEntry)} {fd : FileData} {st : PState}
    {ve : VerseElem}
    (hpos : ∀ ab ch vs, matchBookVerseId book.abbreviations ve.id
      = some (ab, ch, vs) → 1 ≤ ch ∧ 1 ≤ vs)
    (h : passagesOk st) : passagesOk (processVerse book a2b tbl fd st ve) := by
  unfold processVerse
  cases hm : matchBookVerseId book.abbreviations ve.id with
  | none => exact h
  | some t =>
    obtain ⟨ab, ch, vs⟩ := t
    refine ⟨keys_nodup_insertAL h.1, ?_⟩
    intro e he
    rcases mem_insertAL he with he1 | he1
    · subst he1
      obtain ⟨hpre, htail⟩ := matchBookVerseId_spec hm
      obtain ⟨hch, hvs⟩ := hpos ab ch vs hm
      exact ⟨rfl, ab, hpre, htail, hch, hvs⟩
    · exact h.2 e he1.1

theorem processBookFile_passagesOk {a2b : List (String × String)}
    {tbl : List (String × CrossRefEntry)} {book : Book} {fd : FileData}
    {st : PState}
    (hpos : ∀ ve ∈ fd.verses, ∀ ab ch vs,
      matchBookVerseId book.abbreviations ve.id = some (ab, ch, vs) →
        1 ≤ ch ∧ 1 ≤ vs)
    (h : passagesOk st) : passagesOk (processBookFile a2b tbl book fd st) := by
  unfold processBookFile
  have hgen : ∀ (vs0 : List VerseElem) (st1 : PState),
      (∀ ve ∈ vs0, ∀ ab ch vs, matchBookVerseId book.abbreviations ve.id
        = some (ab, ch, vs) → 1 ≤ ch ∧ 1 ≤ vs) →
      passagesOk st1 →
      passagesOk (vs0.foldl (processVerse book a2b tbl fd) st1) := by
    intro vs0
    induction vs0 with
    | nil => intro st1 _ h1; exact h1
    | cons ve rest ih =>
      intro st1 hp h1
      rw [List.foldl_cons]
      exact ih _ (fun v hv => hp v (by simp [hv]))
        (processVerse_passagesOk (hp ve (by simp)) h1)
  exact hgen fd.verses ⟨st.passages, applyArticles fd.articles st.annotations⟩
    hpos ⟨h.1, h.2⟩

/-- C7: after the pipeline, every emitted Passage is stored under its
own id, the id matches the abbreviation-vchap-chapter-verse pattern,
re-parsing the id yields the stored chapter and verse fields, those are
1-indexed provided every matching anchor id in the input is, and each
passage id occurs exactly once in the final collection. -/
theorem claim_C7 (a2b : List (String × String))
    (tbl : List (String × CrossRefEntry)) (runs : List (Book × FileData))
    (anns0 : List (String × Annotation))
    (hpos : ∀ bf ∈ runs, ∀ ve ∈ bf.2.verses, ∀ ab ch vs,
      matchBookVerseId bf.1.abbreviations ve.id = some (ab, ch, vs) →
        1 ≤ ch ∧ 1 ≤ vs) :
    ((runPipeline a2b tbl runs ⟨[], anns0⟩).passages.map (fun e => e.1)).Nodup
    ∧ ∀ e ∈ (runPipeline a2b tbl runs ⟨[], anns0⟩).passages, passageIdOk e := by
  have hgen : ∀ (rs : List (Book × FileData)) (st : PState),
      (∀ bf ∈ rs, ∀ ve ∈ bf.2.verses, ∀ ab ch vs,
        matchBookVerseId bf.1.abbreviations ve.id = some (ab, ch, vs) →
          1 ≤ ch ∧ 1 ≤ vs) →
      passagesOk st → passagesOk (runPipeline a2b tbl rs st) := by
    intro rs
    induction rs with
    | nil => intro st _ h; exact h
    | cons bf rest ih =>
      intro st hp h
      show passagesOk (List.foldl _ _ (bf :: rest))
      rw [List.foldl_cons]
      exact ih _ (fun b hb => hp b (by simp [hb]))
        (processBookFile_passagesOk (hp bf (by simp)) h)
  exact hgen runs ⟨[], anns0⟩ hpos ⟨List.nodup_nil, by simp⟩

theorem claim_C7_witness :
    ((runPipeline [("Gen", "genesis")] []
      [(⟨"genesis", "Genesis", ["Gen"], (1 : ℚ), "old", ["Genesis.html"]⟩,
        ⟨[], [], [], [⟨"Gen_vchap1-1", [], [], [], "In the beginning", "h", "prose"⟩]⟩)]
      ⟨[], []⟩).passages.map (fun e => e.1)).Nodup
    ∧ ∀ e ∈ (runPipeline [("Gen", "genesis")] []
      [(⟨"genesis", "Genesis", ["Gen"], (1 : ℚ), "old", ["Genesis.html"]⟩,
        ⟨[], [], [], [⟨"Gen_vchap1-1", [], [], [], "In the beginning", "h", "prose"⟩]⟩)]
      ⟨[], []⟩).passages, passageIdOk e :=
  claim_C7 [("Gen", "genesis")] []
    [(⟨"genesis", "Genesis", ["Gen"], (1 : ℚ), "old", ["Genesis.html"]⟩,
      ⟨[], [], [], [⟨"Gen_vchap1-1", [], [], [], "In the beginning", "h", "prose"⟩]⟩)]
    [] (by
      intro bf hbf ve hve ab ch vs hm
      simp only [List.mem_singleton] at hbf
      subst hbf
      simp only [List.mem_singleton] at hve
      subst hve
      rw [show matchBookVerseId ["Gen"] "Gen_vchap1-1" = some ("Gen", 1, 1)
        by decide] at hm
      simp at hm
      obtain ⟨h1, h2, h3⟩ := hm
      omega)

/-! ## C4: annotation back-reference invariant -/

/-- The five annotation-id lists of a Passage. -/
def annIds (p : Passage) : List String :=
  p.study_note_ids ++ p.liturgical_ids ++ p.variant_ids ++ p.citation_ids
    ++ p.article_ids

/-- The verse ids a file's element list emits for a book (the elements
whose id matches the book's verse pattern). -/
def emitIds (book : Book) (ves : List VerseElem) : List String :=
  ves.filterMap (fun ve =>
    if (matchBookVerseId book.abbreviations ve.id).isSome then some ve.id else none)

/-- A back-reference that is already satisfied: the passage store has an
entry for the verse id whose five annotation-id lists mention the
annotation. -/
def annRefOk (passages : List (String × Passage)) (aid pid : String) : Prop :=
  ∃ p, lookupAL passages pid = some p ∧ aid ∈ annIds p

/-- A back-reference of an article annotation whose attachment verse is
still to be processed in the remainder of the current file. -/
def pendingArt (book : Book) (fd : FileData) (rem : List VerseElem)
    (aid pid : String) : Prop :=
  (∃ av ∈ fd.articles, av.1.id = aid ∧ av.2 = pid)
  ∧ ∃ ve ∈ rem, ve.id = pid ∧ (matchBookVerseId book.abbreviations ve.id).isSome

/-- The C4 invariant between files: every stored annotation sits under
its own id, its passage id list has no duplicates, and each listed
passage id refers to a stored Passage that mentions the annotation. -/
def AnnOk (st : PState) : Prop :=
  ∀ e ∈ st.annotations, e.2.id = e.1 ∧ e.2.passage_ids.Nodup ∧
    ∀ pid ∈ e.2.passage_ids, annRefOk st.passages e.1 pid

/-- The C4 invariant inside a file: back-references may also point
forward to an article attachment verse still in the remainder. -/
def AnnMid (book : Book) (fd : FileData) (st : PState)
    (rem : List VerseElem) : Prop :=
  ∀ e ∈ st.annotations, e.2.id = e.1 ∧ e.2.passage_ids.Nodup ∧
    ∀ pid ∈ e.2.passage_ids,
      annRefOk st.passages e.1 pid ∨ pendingArt book fd rem e.1 pid

theorem lookupAL_mem_keys {α : Type} {m : List (String × α)} {k : String}
    {v : α} (h : lookupAL m k = some v) : k ∈ m.map (fun e => e.1) := by
  unfold lookupAL at h
  cases hf : m.find? (fun p => p.1 = k) with
  | none => rw [hf] at h; simp at h
  | some e =>
    have hm := List.mem_of_find?_eq_some hf
    have hp := List.find?_some hf
    simp at hp
    exact List.mem_map.mpr ⟨e, hm, hp⟩

theorem mem_articleIdsFor {arts : List ( Annotation × String)} {a : Annotation}
    {pid : String} (h : (a, pid) ∈ arts) : a.id ∈ articleIdsFor arts pid := by
  unfold articleIdsFor
  exact List.mem_map.mpr ⟨(a, pid), List.mem_filter.mpr ⟨h, by simp⟩, rfl⟩

theorem AnnMid_nil {book : Book} {fd : FileData} {st : PState}
    (h : AnnMid book fd st []) : AnnOk st := by
  intro e he
  obtain ⟨h1, h2, h3⟩ := h e he
  refine ⟨h1, h2, fun pid hp => ?_⟩
  rcases h3 pid hp with hg | hpend
  · exact hg
  · obtain ⟨_, ve, hve, _⟩ := hpend
    simp at hve

theorem lookupAL_mem {α : Type} {m : List (String × α)} {k : String} {v : α}
    (h : lookupAL m k = some v) : (k, v) ∈ m := by
  unfold lookupAL at h
  cases hf : m.find? (fun p => p.1 = k) with
  | none => rw [hf] at h; simp at h
  | some e =>
    have hm := List.mem_of_find?_eq_some hf
    have hp := List.find?_some hf
    simp at hp
    rw [hf] at h
    simp at h
    rw [show (k, v) = e from by
      rw [show e = (e.1, e.2) from rfl, hp, h]]
    exact hm

/-- The per-entry property of the mid-file invariant, with the passage
store and remainder fixed. -/
def annEntryMid (book : Book) (fd : FileData)
    (passages : List (String × Passage)) (rem : List VerseElem)
    (e : String × Annotation) : Prop :=
  e.2.id = e.1 ∧ e.2.passage_ids.Nodup ∧
    ∀ pid ∈ e.2.passage_ids,
      annRefOk passages e.1 pid ∨ pendingArt book fd rem e.1 pid

theorem updateAnnPassage_mid {book : Book} {fd : FileData}
    {passages : List (String × Passage)} {rem : List VerseElem}
    {anns : List (String × Annotation)} {aid verseId : String}
    (href : annRefOk passages aid verseId)
    (hok : ∀ e ∈ anns, annEntryMid book fd passages rem e) :
    ∀ e ∈ updateAnnPassage anns aid verseId,
      annEntryMid book fd passages rem e := by
  cases hl : lookupAL anns aid with
  | none =>
    rw [show updateAnnPassage anns aid verseId = anns by
      unfold updateAnnPassage; rw [hl]]
    exact hok
  | some a =>
    have hred : updateAnnPassage anns aid verseId =
        if a.passage_ids.contains verseId = true then anns
        else insertAL anns aid { a with passage_ids := a.passage_ids ++ [verseId] } := by
      unfold updateAnnPassage
      rw [hl]
    rw [hred]
    by_cases hc : a.passage_ids.contains verseId = true
    · rw [if_pos hc]
      exact hok
    · rw [if_neg hc]
      intro e he
      rcases mem_insertAL he with he1 | he1
      · subst he1
        have hmem := lookupAL_mem hl
        obtain ⟨hid, hnd, hrefs⟩ := hok (aid, a) hmem
        refine ⟨hid, ?_, ?_⟩
        · refine List.Nodup.append hnd (List.nodup_singleton verseId) ?_
          intro x hx hx1
          simp at hx1
          subst hx1
          exact hc (List.contains_iff_exists_mem_beq.mpr ⟨x, hx, by simp⟩)
        · intro pid hpid
          rw [List.mem_append] at hpid
          rcases hpid with hpid | hpid
          · exact hrefs pid hpid
          · simp at hpid
            subst hpid
            exact Or.inl href
      · exact hok e he1.1

theorem combinedIds_sub_annIds {book : Book} {a2b : List (String × String)}
    {tbl : List (String × CrossRefEntry)} {fd : FileData} {ve : VerseElem}
    {ab : String} {ch vs : Nat} {aid : String}
    (h : aid ∈ combinedIds fd ve) :
    aid ∈ annIds (builtPassage book a2b tbl fd ve ab ch vs) := by
  unfold combinedIds at h
  unfold annIds builtPassage
  simp only [List.mem_append] at h ⊢
  rcases h with ((h | h) | h) | h
  · exact Or.inl (Or.inl (Or.inl (Or.inl h)))
  · exact Or.inl (Or.inl (Or.inl (Or.inr h)))
  · exact Or.inl (Or.inl (Or.inr h))
  · exact Or.inl (Or.inr h)

theorem annRefOk_insert_ne {passages : List (String × Passage)} {k : String}
    {p : Passage} {aid pid : String} (h : annRefOk passages aid pid)
    (hne : pid ≠ k) : annRefOk (insertAL passages k p) aid pid := by
  obtain ⟨q, hq, hmem⟩ := h
  exact ⟨q, by rw [lookupAL_insert_ne _ _ _ _ hne]; exact hq, hmem⟩

theorem AnnMid_step_nomatch {book : Book} {a2b : List (String × String)}
    {tbl : List (String × CrossRefEntry)} {fd : FileData} {st : PState}
    {ve : VerseElem} {rest : List VerseElem}
    (hm : matchBookVerseId book.abbreviations ve.id = none)
    (h : AnnMid book fd st (ve :: rest)) :
    AnnMid book fd (processVerse book a2b tbl fd st ve) rest := by
  rw [show processVerse book a2b tbl fd st ve = st by
    unfold processVerse; rw [hm]]
  intro e he
  obtain ⟨h1, h2, h3⟩ := h e he
  refine ⟨h1, h2, fun pid hp => ?_⟩
  rcases h3 pid hp with hg | ⟨hart, ve2, hve2, hid2, hsome⟩
  · exact Or.inl hg
  · rcases List.mem_cons.mp hve2 with rfl | hve2r
    · rw [hm] at hsome
      simp at hsome
    · exact Or.inr ⟨hart, ve2, hve2r, hid2, hsome⟩

theorem AnnMid_step_match {book : Book} {a2b : List (String × String)}
    {tbl : List (String × CrossRefEntry)} {fd : FileData} {st : PState}
    {ve : VerseElem} {rest : List VerseElem} {ab : String} {ch vs : Nat}
    (hm : matchBookVerseId book.abbreviations ve.id = some (ab, ch, vs))
    (hfresh : ve.id ∉ st.passages.map (fun e => e.1))
    (h : AnnMid book fd st (ve :: rest)) :
    AnnMid book fd (processVerse book a2b tbl fd st ve) rest := by
  rw [show processVerse book a2b tbl fd st ve =
      ⟨insertAL st.passages ve.id (builtPassage book a2b tbl fd ve ab ch vs),
       (combinedIds fd ve).foldl
         (fun anns aid => updateAnnPassage anns aid ve.id) st.annotations⟩ by
    unfold processVerse; rw [hm]]
  have hA : ∀ e ∈ st.annotations, annEntryMid book fd
      (insertAL st.passages ve.id (builtPassage book a2b tbl fd ve ab ch vs))
      rest e := by
    intro e he
    obtain ⟨h1, h2, h3⟩ := h e he
    refine ⟨h1, h2, fun pid hp => ?_⟩
    rcases h3 pid hp with hg | ⟨hart, ve2, hve2, hid2, hsome⟩
    · have hne : pid ≠ ve.id := by
        intro hEq
        obtain ⟨q, hq, _⟩ := hg
        exact hfresh (hEq ▸ lookupAL_mem_keys hq)
      exact Or.inl (annRefOk_insert_ne hg hne)
    · by_cases hpe : pid = ve.id
      · refine Or.inl ⟨builtPassage book a2b tbl fd ve ab ch vs, ?_, ?_⟩
        · rw [hpe]
          exact lookupAL_insert _ _ _
        · obtain ⟨av, hav, havid, havpid⟩ := hart
          have hmemArt : (av.1, ve.id) ∈ fd.articles := by
            have h2 := hav
            rw [show av = (av.1, av.2) from (Prod.mk.eta).symm] at h2
            rw [havpid, hpe] at h2
            exact h2
          have hin := mem_articleIdsFor hmemArt
          rw [havid] at hin
          unfold annIds
          simp only [List.mem_append]
          exact Or.inr hin
      · rcases List.mem_cons.mp hve2 with rfl | hve2r
        · exact absurd (hid2.symm) hpe
        · exact Or.inr ⟨hart, ve2, hve2r, hid2, hsome⟩
  have hcomb : ∀ aid ∈ combinedIds fd ve,
      annRefOk (insertAL st.passages ve.id
        (builtPassage book a2b tbl fd ve ab ch vs)) aid ve.id := by
    intro aid ha
    exact ⟨builtPassage book a2b tbl fd ve ab ch vs, lookupAL_insert _ _ _,
      combinedIds_sub_annIds ha⟩
  have hfold : ∀ (ids : List String) (anns : List (String × Annotation)),
      (∀ aid ∈ ids, annRefOk (insertAL st.passages ve.id
        (builtPassage book a2b tbl fd ve ab ch vs)) aid ve.id) →
      (∀ e ∈ anns, annEntryMid book fd (insertAL st.passages ve.id
        (builtPassage book a2b tbl fd ve ab ch vs)) rest e) →
      ∀ e ∈ ids.foldl (fun anns aid => updateAnnPassage anns aid ve.id) anns,
        annEntryMid book fd (insertAL st.passages ve.id
          (builtPassage book a2b tbl fd ve ab ch vs)) rest e := by
    intro ids
    induction ids with
    | nil => intro anns _ hok; exact hok
    | cons aid ids2 ih =>
      intro anns hids hok
      rw [List.foldl_cons]
      exact ih _ (fun a ha => hids a (List.mem_cons_of_mem _ ha))
        (updateAnnPassage_mid (hids aid (List.mem_cons_self _ _)) hok)
  exact fun e he => hfold (combinedIds fd ve) st.annotations hcomb hA e he

theorem emitIds_cons_none {book : Book} {ve : VerseElem} {rest : List VerseElem}
    (hm : matchBookVerseId book.abbreviations ve.id = none) :
    emitIds book (ve :: rest) = emitIds book rest := by
  unfold emitIds
  rw [List.filterMap_cons]
  simp [hm]

theorem emitIds_cons_some {book : Book} {ve : VerseElem} {rest : List VerseElem}
    {r : String × Nat × Nat}
    (hm : matchBookVerseId book.abbreviations ve.id = some r) :
    emitIds book (ve :: rest) = ve.id :: emitIds book rest := by
  unfold emitIds
  rw [List.filterMap_cons]
  simp [hm]

theorem any_keys_eq_false {α : Type} {m : List (String × α)} {k : String}
    (h : k ∉ m.map (fun e => e.1)) : m.any (fun p => p.1 = k) = false := by
  by_cases hc : m.any (fun p => p.1 = k) = true
  · exfalso
    obtain ⟨p, hp, hpk⟩ := List.any_eq_true.mp hc
    simp at hpk
    exact h (List.mem_map.mpr ⟨p, hp, hpk⟩)
  · exact eq_false_of_ne_true hc

theorem insertAL_keys_fresh {α : Type} {m : List (String × α)} {k : String}
    (v : α) (h : k ∉ m.map (fun e => e.1)) :
    (insertAL m k v).map (fun e => e.1) = m.map (fun e => e.1) ++ [k] := by
  rw [keysOf_insertAL, any_keys_eq_false h]
  simp

theorem verseFold_mid {book : Book} {a2b : List (String × String)}
    {tbl : List (String × CrossRefEntry)} {fd : FileData} :
    ∀ (ves : List VerseElem) (st : PState),
      AnnMid book fd st ves →
      (∀ k ∈ emitIds book ves, k ∉ st.passages.map (fun e => e.1)) →
      (emitIds book ves).Nodup →
      AnnMid book fd (ves.foldl (processVerse book a2b tbl fd) st) [] := by
  intro ves
  induction ves with
  | nil => intro st hmid _ _; exact hmid
  | cons ve rest ih =>
    intro st hmid hdisj hnd
    rw [List.foldl_cons]
    cases hm : matchBookVerseId book.abbreviations ve.id with
    | none =>
      have hst : processVerse book a2b tbl fd st ve = st := by
        unfold processVerse; rw [hm]
      have hmid2 : AnnMid book fd st rest := hst ▸ AnnMid_step_nomatch hm hmid
      rw [hst]
      rw [emitIds_cons_none hm] at hdisj hnd
      exact ih st hmid2 hdisj hnd
    | some r =>
      obtain ⟨ab, ch, vs⟩ := r
      rw [emitIds_cons_some hm] at hdisj hnd
      have hfresh : ve.id ∉ st.passages.map (fun e => e.1) :=
        hdisj ve.id (List.mem_cons_self _ _)
      have hmid2 := @AnnMid_step_match book a2b tbl fd st ve rest ab ch vs
        hm hfresh hmid
      have hpv : processVerse book a2b tbl fd st ve =
          ⟨insertAL st.passages ve.id (builtPassage book a2b tbl fd ve ab ch vs),
           (combinedIds fd ve).foldl
             (fun anns aid => updateAnnPassage anns aid ve.id) st.annotations⟩ := by
        unfold processVerse; rw [hm]
      have hnd2 : (emitIds book rest).Nodup := (List.nodup_cons.mp hnd).2
      have hne : ve.id ∉ emitIds book rest := (List.nodup_cons.mp hnd).1
      refine ih (processVerse book a2b tbl fd st ve) hmid2 ?_ hnd2
      intro k hk
      rw [hpv]
      show k ∉ (insertAL st.passages ve.id
        (builtPassage book a2b tbl fd ve ab ch vs)).map (fun e => e.1)
      rw [insertAL_keys_fresh _ hfresh]
      intro hc
      rcases List.mem_append.mp hc with h1 | h1
      · exact hdisj k (List.mem_cons_of_mem _ hk) h1
      · have hkv : k = ve.id := by simpa using h1
        exact hne (hkv ▸ hk)

theorem verseFold_keys {book : Book} {a2b : List (String × String)}
    {tbl : List (String × CrossRefEntry)} {fd : FileData} :
    ∀ (ves : List VerseElem) (st : PState),
      (∀ k ∈ emitIds book ves, k ∉ st.passages.map (fun e => e.1)) →
      (emitIds book ves).Nodup →
      (ves.foldl (processVerse book a2b tbl fd) st).passages.map (fun e => e.1)
        = st.passages.map (fun e => e.1) ++ emitIds book ves := by
  intro ves
  induction ves with
  | nil => intro st _ _; simp [emitIds]
  | cons ve rest ih =>
    intro st hdisj hnd
    rw [List.foldl_cons]
    cases hm : matchBookVerseId book.abbreviations ve.id with
    | none =>
      have hst : processVerse book a2b tbl fd st ve = st := by
        unfold processVerse; rw [hm]
      rw [hst, emitIds_cons_none hm]
      rw [emitIds_cons_none hm] at hdisj hnd
      exact ih st hdisj hnd
    | some r =>
      obtain ⟨ab, ch, vs⟩ := r
      rw [emitIds_cons_some hm] at hdisj hnd
      have hfresh : ve.id ∉ st.passages.map (fun e => e.1) :=
        hdisj ve.id (List.mem_cons_self _ _)
      have hpv : processVerse book a2b tbl fd st ve =
          ⟨insertAL st.passages ve.id (builtPassage book a2b tbl fd ve ab ch vs),
           (combinedIds fd ve).foldl
             (fun anns aid => updateAnnPassage anns aid ve.id) st.annotations⟩ := by
        unfold processVerse; rw [hm]
      have hkeys : (processVerse book a2b tbl fd st ve).passages.map (fun e => e.1)
          = st.passages.map (fun e => e.1) ++ [ve.id] := by
        rw [hpv]
        exact insertAL_keys_fresh _ hfresh
      have hnd2 : (emitIds book rest).Nodup := (List.nodup_cons.mp hnd).2
      have hne : ve.id ∉ emitIds book rest := (List.nodup_cons.mp hnd).1
      have hdisj2 : ∀ k ∈ emitIds book rest,
          k ∉ (processVerse book a2b tbl fd st ve).passages.map (fun e => e.1) := by
        intro k hk
        rw [hkeys]
        intro hc
        rcases List.mem_append.mp hc with h1 | h1
        · exact hdisj k (List.mem_cons_of_mem _ hk) h1
        · have hkv : k = ve.id := by simpa using h1
          exact hne (hkv ▸ hk)
      rw [ih (processVerse book a2b tbl fd st ve) hdisj2 hnd2, hkeys,
        List.append_assoc, List.singleton_append, emitIds_cons_some hm]

theorem mem_applyArticles {arts : List ( Annotation × String)}
    {anns : List (String × Annotation)} {e : String × Annotation}
    (h : e ∈ applyArticles arts anns) :
    e ∈ anns ∨ ∃ av ∈ arts, e = (av.1.id, av.1) := by
  unfold applyArticles at h
  induction arts generalizing anns with
  | nil => exact Or.inl h
  | cons av rest ih =>
    rw [List.foldl_cons] at h
    rcases ih h with h1 | ⟨av2, hav2, he⟩
    · rcases mem_insertAL h1 with he | ⟨hm, _⟩
      · exact Or.inr ⟨av, List.mem_cons_self _ _, he⟩
      · exact Or.inl hm
    · exact Or.inr ⟨av2, List.mem_cons_of_mem _ hav2, he⟩

theorem applyArticles_mid {book : Book} {fd : FileData} {st : PState}
    (hok : AnnOk st)
    (hart : ∀ av ∈ fd.articles, av.1.passage_ids = [av.2] ∧
      ∃ ve ∈ fd.verses, ve.id = av.2 ∧
        (matchBookVerseId book.abbreviations ve.id).isSome = true) :
    AnnMid book fd ⟨st.passages, applyArticles fd.articles st.annotations⟩
      fd.verses := by
  intro e he
  rcases mem_applyArticles he with h1 | ⟨av, hav, heq⟩
  · obtain ⟨h1a, h1b, h1c⟩ := hok e h1
    exact ⟨h1a, h1b, fun pid hp => Or.inl (h1c pid hp)⟩
  · subst heq
    obtain ⟨hpid, ve, hve, hveid, hsome⟩ := hart av hav
    refine ⟨rfl, by rw [hpid]; exact List.nodup_singleton _, ?_⟩
    intro pid hp
    rw [hpid] at hp
    have hpe : pid = av.2 := by simpa using hp
    subst hpe
    exact Or.inr ⟨⟨av, hav, rfl, rfl⟩, ve, hve, hveid, hsome⟩

theorem processBookFile_annOk {a2b : List (String × String)}
    {tbl : List (String × CrossRefEntry)} {book : Book} {fd : FileData}
    {st : PState}
    (hok : AnnOk st)
    (hart : ∀ av ∈ fd.articles, av.1.passage_ids = [av.2] ∧
      ∃ ve ∈ fd.verses, ve.id = av.2 ∧
        (matchBookVerseId book.abbreviations ve.id).isSome = true)
    (hdisj : ∀ k ∈ emitIds book fd.verses, k ∉ st.passages.map (fun e => e.1))
    (hnd : (emitIds book fd.verses).Nodup) :
    AnnOk (processBookFile a2b tbl book fd st) :=
  AnnMid_nil (verseFold_mid fd.verses
    ⟨st.passages, applyArticles fd.articles st.annotations⟩
    (applyArticles_mid hok hart) hdisj hnd)

theorem processBookFile_keys {a2b : List (String × String)}
    {tbl : List (String × CrossRefEntry)} {book : Book} {fd : FileData}
    {st : PState}
    (hdisj : ∀ k ∈ emitIds book fd.verses, k ∉ st.passages.map (fun e => e.1))
    (hnd : (emitIds book fd.verses).Nodup) :
    (processBookFile a2b tbl book fd st).passages.map (fun e => e.1)
      = st.passages.map (fun e => e.1) ++ emitIds book fd.verses :=
  verseFold_keys fd.verses
    ⟨st.passages, applyArticles fd.articles st.annotations⟩ hdisj hnd

/-- The verse ids emitted over a whole run, file by file in order. -/
def allEmitIds (runs : List (Book × FileData)) : List String :=
  runs.foldr (fun bf acc => emitIds bf.1 bf.2.verses ++ acc) []

theorem runPipeline_annOk {a2b : List (String × String)}
    {tbl : List (String × CrossRefEntry)} :
    ∀ (runs : List (Book × FileData)) (st : PState),
      AnnOk st →
      (∀ k ∈ allEmitIds runs, k ∉ st.passages.map (fun e => e.1)) →
      (allEmitIds runs).Nodup →
      (∀ bf ∈ runs, ∀ av ∈ bf.2.articles, av.1.passage_ids = [av.2] ∧
        ∃ ve ∈ bf.2.verses, ve.id = av.2 ∧
          (matchBookVerseId bf.1.abbreviations ve.id).isSome = true) →
      AnnOk (runPipeline a2b tbl runs st) := by
  intro runs
  induction runs with
  | nil => intro st h _ _ _; exact h
  | cons bf rest ih =>
    intro st hok hdisj hnd hart
    rw [show runPipeline a2b tbl (bf :: rest) st
        = runPipeline a2b tbl rest (processBookFile a2b tbl bf.1 bf.2 st) by
      unfold runPipeline; rw [List.foldl_cons]]
    have hall : allEmitIds (bf :: rest)
        = emitIds bf.1 bf.2.verses ++ allEmitIds rest := rfl
    rw [hall] at hdisj hnd
    obtain ⟨hnd1, hnd2, hdisj12⟩ := List.nodup_append.mp hnd
    have hdisj1 : ∀ k ∈ emitIds bf.1 bf.2.verses,
        k ∉ st.passages.map (fun e => e.1) :=
      fun k hk => hdisj k (List.mem_append_left _ hk)
    refine ih (processBookFile a2b tbl bf.1 bf.2 st)
      (processBookFile_annOk hok (hart bf (List.mem_cons_self _ _)) hdisj1 hnd1)
      ?_ hnd2 (fun bf2 h2 => hart bf2 (List.mem_cons_of_mem _ h2))
    intro k hk
    rw [processBookFile_keys hdisj1 hnd1]
    intro hc
    rcases List.mem_append.mp hc with h1 | h1
    · exact hdisj k (List.mem_append_right _ hk) h1
    · exact hdisj12 h1 hk

/-- C4: after the pipeline runs over all book files, every stored
Annotation's passage_ids list is duplicate-free, and each id in it
refers to an emitted Passage whose five annotation-id lists (study,
liturgical, variant, citation, article) mention the annotation's id.
The hypotheses state what the earlier extraction stages guarantee:
pre-registered annotations start with empty passage_ids under their own
id, each inline article arrives with passage_ids already set to its one
attachment verse and that verse is emitted by the same file, and no
verse id is emitted twice across the run. -/
theorem claim_C4 (a2b : List (String × String))
    (tbl : List (String × CrossRefEntry)) (runs : List (Book × FileData))
    (anns0 : List (String × Annotation))
    (h0 : ∀ e ∈ anns0, e.2.id = e.1 ∧ e.2.passage_ids = [])
    (hart : ∀ bf ∈ runs, ∀ av ∈ bf.2.articles, av.1.passage_ids = [av.2] ∧
      ∃ ve ∈ bf.2.verses, ve.id = av.2 ∧
        (matchBookVerseId bf.1.abbreviations ve.id).isSome = true)
    (hnd : (allEmitIds runs).Nodup) :
    ∀ e ∈ (runPipeline a2b tbl runs ⟨[], anns0⟩).annotations,
      e.2.passage_ids.Nodup ∧
      ∀ pid ∈ e.2.passage_ids,
        ∃ p, lookupAL (runPipeline a2b tbl runs ⟨[], anns0⟩).passages pid = some p
          ∧ e.2.id ∈ annIds p := by
  have hok0 : AnnOk ⟨[], anns0⟩ := by
    intro e he
    obtain ⟨h1, h2⟩ := h0 e he
    refine ⟨h1, by rw [h2]; exact List.nodup_nil, ?_⟩
    intro pid hp
    rw [h2] at hp
    exact absurd hp (List.not_mem_nil pid)
  have h := @runPipeline_annOk a2b tbl runs ⟨[], anns0⟩ hok0
    (fun k _ hc => absurd hc (by simp)) hnd hart
  intro e he
  obtain ⟨h1, h2, h3⟩ := h e he
  refine ⟨h2, fun pid hp => ?_⟩
  obtain ⟨p, hlp, hmem⟩ := h3 pid hp
  rw [h1]
  exact ⟨p, hlp, hmem⟩

def c4book : Book := ⟨"genesis", "Genesis", ["Gen"], (1 : ℚ), "old", ["Genesis.html"]⟩

def c4artAnn : Annotation :=
  ⟨"art1", "article", ["Gen_vchap1-1"], "1:1", "On creation", "<div>On creation</div>", [], []⟩

def c4studyAnn : Annotation :=
  ⟨"n1", "study", [], "1:1", "A note", "<p>A note</p>", [], []⟩

def c4fdW : FileData :=
  ⟨[(c4artAnn, "Gen_vchap1-1")], [], [],
   [⟨"Gen_vchap1-1", ["n1"], [], [], "In the beginning", "h", "prose"⟩]⟩

def c4runs : List (Book × FileData) := [(c4book, c4fdW)]

def c4anns0 : List (String × Annotation) := [("n1", c4studyAnn)]

theorem claim_C4_witness :
    (("n1", { c4studyAnn with passage_ids := ["Gen_vchap1-1"] }) ∈
      (runPipeline [("Gen", "genesis")] [] c4runs ⟨[], c4anns0⟩).annotations)
    ∧ (["Gen_vchap1-1"] : List String).Nodup
    ∧ ∃ p, lookupAL (runPipeline [("Gen", "genesis")] [] c4runs
        ⟨[], c4anns0⟩).passages "Gen_vchap1-1" = some p ∧ "n1" ∈ annIds p := by
  have h := claim_C4 [("Gen", "genesis")] [] c4runs c4anns0
    (by decide) (by decide) (by decide)
  have hmem : ("n1", { c4studyAnn with passage_ids := ["Gen_vchap1-1"] }) ∈
      (runPipeline [("Gen", "genesis")] [] c4runs ⟨[], c4anns0⟩).annotations := by
    decide
  exact ⟨hmem, by decide, (h _ hmem).2 "Gen_vchap1-1" (by decide)⟩

/-! ## C5: inline article extraction scenario -/

def c5titleP : Node :=
  Node.elem "p" [("class", "ct"), ("id", "the_law")]
    [.text "T H E", .elem "br" [] [], .text "L A W"]

def c5articleDiv : Node :=
  Node.elem "div" [("style", "background-color: gray;")]
    [c5titleP, .elem "p" [("class", "tx1")] [.text "Body text here."]]

/-- The scenario document: the gray article block sits between the
anchors of Matthew 5:2 and 5:3. -/
def c5doc : Node :=
  Node.elem "html" [] [.elem "body" [] [
    .elem "p" [] [.elem "sup" [("id", "Matt_vchap5-2")] [.text "2"],
      .text "verse two text"],
    c5articleDiv,
    .elem "p" [] [.elem "sup" [("id", "Matt_vchap5-3")] [.text "3"],
      .text "verse three text"]]]

/-- The same block with no verse anchor after it. -/
def c5docNoVerse : Node :=
  Node.elem "html" [] [.elem "body" [] [
    .elem "p" [] [.elem "sup" [("id", "Matt_vchap5-2")] [.text "2"],
      .text "verse two text"],
    c5articleDiv]]

def c5book : Book :=
  ⟨"matthew", "Matthew", ["Matt"], (50 : ℚ), "new", ["Matthew.html"]⟩

/-- The file data of the scenario: the articles are the ones the
extractor finds in the document, and the verse elements are the two
Matthew anchors. -/
def c5fd : FileData :=
  ⟨extractArticles c5doc, [], [],
   [⟨"Matt_vchap5-2", [], [], [], "verse two text", "h2", "prose"⟩,
    ⟨"Matt_vchap5-3", [], [], [], "verse three text", "h3", "prose"⟩]⟩

/-- C5: the gray article block with letter-spaced title between the
5:2 and 5:3 anchors yields one article annotation with clean title THE
LAW, attached to the next verse anchor Matt_vchap5-3, and the emitted
5:3 Passage lists the article id; the same block with no following
verse anchor yields nothing. -/
theorem claim_C5 :
    cleanSpacedTitle "T H E  L A W" = "THE LAW"
    ∧ (extractArticles c5doc).map
        (fun p => (p.1.id, p.1.type, p.1.passage_ids, p.1.text, p.2))
      = [("the_law", "article", ["Matt_vchap5-3"],
          "THE LAW\n\nBody text here.", "Matt_vchap5-3")]
    ∧ (lookupAL (processBookFile [("Matt", "matthew")] [] c5book c5fd
          ⟨[], []⟩).passages "Matt_vchap5-3").map (fun p => p.article_ids)
        = some ["the_law"]
    ∧ (lookupAL (processBookFile [("Matt", "matthew")] [] c5book c5fd
          ⟨[], []⟩).annotations "the_law").map
        (fun a => (a.type, a.passage_ids))
        = some ("article", ["Matt_vchap5-3"])
    ∧ extractArticles c5docNoVerse = [] := by
  refine ⟨by decide, by decide, by decide, by decide, by decide⟩

theorem claim_C6_witness :
    "Sus" ≠ "Dan"
    ∧ (∃ b1 b2 : Book,
        processGroup "daniel" [⟨0, "Daniel.html", 30, "Daniel"⟩]
          (fun _ => ["Sus", "Dan"]) = [b1, b2]
        ∧ b1.abbreviations = ["Sus"] ∧ b2.abbreviations = ["Dan"]
        ∧ b1.files = (sortEntries [⟨0, "Daniel.html", 30, "Daniel"⟩]).map
            (fun f => f.href)
        ∧ b2.files = b1.files
        ∧ b1.order = ((30 : ℕ) : ℚ)
        ∧ b2.order = b1.order + 1 / 10)
    ∧ (∀ bk ∈ processGroup "daniel" [⟨0, "Daniel.html", 30, "Daniel"⟩]
          (fun _ => ["Sus", "Dan"]),
        bk.testament = if NT_START_ORDER ≤ 30 then "new" else "old") :=
  claim_C6 "daniel" [⟨0, "Daniel.html", 30, "Daniel"⟩] (fun _ => ["Sus", "Dan"])
    "Sus" "Dan" ⟨0, "Daniel.html", 30, "Daniel"⟩ (by decide) (by decide)

end OSB
